import Mathlib

/-!
# RawDataSerialize: a tagged binary codec

Shallow embedding of `src/main.cpp`.

Modelling conventions:

* a `Buffer` (`std::vector<std::byte>`) is a list of bytes, a byte is a `Fin 256`;
* a `Buffer::const_iterator` is the index of the element it points at; `std::distance` of two
  iterators is the difference of the indices as an integer (`std::ptrdiff_t`);
* dereferencing an iterator that does not point at an element of the buffer is undefined
  behaviour in C++; the model stops there with `Err.outOfBounds`;
* `uint64_t` and `size_t` are natural numbers below `2 ^ 64`, `static_cast<std::ptrdiff_t>` of
  such a number is its two's complement reading (`toPtrdiff`);
* a `double` is represented by its IEEE-754 bit pattern (a number below `2 ^ 64`); the host is
  little-endian, so that the object representation read by `tools::serialize<double>` lists
  the bit pattern least significant byte first;
* an exception is an `Err`; member functions that assign to `value_` / `data_` return the
  content of the object after the call next to the result, so that the state left behind by
  a throwing call can be observed;
* `reserve(n)` throws `std::length_error` when `n` exceeds `max_size()`; the two `max_size()`
  constants of the standard library are parameters (`Limits`). Exhaustion of memory
  (`std::bad_alloc`) is outside the model;
* the mutual recursion of `Any::deserialize` and `VectorType::deserialize` is bounded by a
  `fuel` argument (the nesting depth still allowed); `Err.outOfFuel` marks an exhausted
  bound and does not correspond to any behaviour of the program.
-/

set_option autoImplicit false

namespace RawDataSerialize

/-- One `std::byte`. -/
abbrev Byte := Fin 256

/-- `using Buffer = std::vector<std::byte>`. -/
abbrev Buffer := List Byte

/-- The exceptions the program can raise, one constructor per message, together with the
two markers of the model (`outOfBounds`, `outOfFuel`). -/
inductive Err where
  /-- `std::runtime_error("Invalid buffer size")`, thrown by `Any::deserialize`. -/
  | invalidBufferSize
  /-- `std::runtime_error("Buffer too small for type ID")`. -/
  | tooSmallForTypeId
  /-- `std::runtime_error("Type ID mismatch")`. -/
  | typeIdMismatch
  /-- `std::runtime_error("Buffer too small for size")`. -/
  | tooSmallForSize
  /-- `std::runtime_error("Buffer too small for data")`. -/
  | tooSmallForData
  /-- `std::runtime_error("Buffer too small for value")`. -/
  | tooSmallForValue
  /-- `std::runtime_error("Unknown type ID")`. -/
  | unknownTypeId
  /-- `std::length_error` thrown by `reserve` beyond `max_size()`. -/
  | lengthError
  /-- An iterator was dereferenced outside the buffer (undefined behaviour). -/
  | outOfBounds
  /-- The recursion bound of the model was exhausted. -/
  | outOfFuel
  deriving DecidableEq, Repr

/-- The errors that report that the buffer is shorter than a field needs. -/
def Err.isUnderrun : Err → Bool
  | .invalidBufferSize => true
  | .tooSmallForTypeId => true
  | .tooSmallForSize => true
  | .tooSmallForData => true
  | .tooSmallForValue => true
  | _ => false

/-- The errors of the codec itself, the ones it throws as `std::runtime_error`. -/
def Err.isRuntimeError : Err → Bool
  | .invalidBufferSize => true
  | .tooSmallForTypeId => true
  | .typeIdMismatch => true
  | .tooSmallForSize => true
  | .tooSmallForData => true
  | .tooSmallForValue => true
  | .unknownTypeId => true
  | _ => false

/-- The `max_size()` of `std::string` and of `std::vector<Any>`. Both are at most
`PTRDIFF_MAX` on a 64-bit platform. -/
structure Limits where
  /-- `std::string::max_size()`. -/
  stringMax : Nat
  /-- `std::vector<Any>::max_size()`. -/
  vectorMax : Nat
  stringMax_lt : stringMax < 2 ^ 63
  vectorMax_lt : vectorMax < 2 ^ 63

/-- The limits of libstdc++ on x86-64 (`sizeof(Any) = 40`). -/
def Limits.libstdcxx : Limits where
  stringMax := 2 ^ 62 - 1
  vectorMax := (2 ^ 63 - 1) / 40
  stringMax_lt := by norm_num
  vectorMax_lt := by norm_num

/-- `enum class TypeId : Id { Uint, Float, String, Vector }`, as the number it is cast to. -/
inductive TypeId where
  | Uint
  | Float
  | String
  | Vector
  deriving DecidableEq, Repr

/-- `static_cast<Id>(id)`. -/
def TypeId.toId : TypeId → Nat
  | .Uint => 0
  | .Float => 1
  | .String => 2
  | .Vector => 3

/-- The variant `std::variant<IntegerType, FloatType, StringType, VectorType>` held by an
`Any`, each alternative given by its `value_`. -/
inductive Any where
  /-- `IntegerType`, `value_` a `uint64_t`. -/
  | integer (value_ : Nat)
  /-- `FloatType`, `value_` a `double`, given by its bit pattern. -/
  | float (bits : Nat)
  /-- `StringType`, `value_` a `std::string`, given by its chars as bytes. -/
  | string (value_ : List Byte)
  /-- `VectorType`, `value_` a `std::vector<Any>`. -/
  | vector (value_ : List Any)
  deriving Repr

/-- `Any::getPayloadTypeId`. -/
def Any.getPayloadTypeId : Any → TypeId
  | .integer _ => .Uint
  | .float _ => .Float
  | .string _ => .String
  | .vector _ => .Vector

namespace tools

/-- The loop of `tools::serialize`: `n` more rounds, starting at index `i`. -/
def serializeLoop (value : Nat) : Nat → Nat → Buffer → Buffer
  | 0, _, buff => buff
  | n + 1, i, buff =>
    serializeLoop value n (i + 1) (buff ++ [Fin.ofNat ((value >>> (i * 8)) &&& 0xFF)])

/-- `tools::serialize<T>(value, buff)` for the two 8-byte types, `uint64_t` and (through the
bit pattern) `double`. -/
def serialize (value : Nat) (buff : Buffer) : Buffer :=
  serializeLoop value 8 0 buff

/-- The loop of `tools::deserialize`: `n` more rounds, starting at index `i`; every round
dereferences `it` without any check. -/
def deserializeLoop (buf : Buffer) : Nat → Nat → Nat → Nat → Except Err (Nat × Nat)
  | 0, _, value, it => .ok (value, it)
  | n + 1, i, value, it =>
    match buf[it]? with
    | none => .error .outOfBounds
    | some b => deserializeLoop buf n (i + 1) (value ||| (b.val <<< (i * 8))) (it + 1)

/-- `tools::deserialize<T>(it)` for the two 8-byte types: the value read and the advanced
iterator. -/
def deserialize (buf : Buffer) (it : Nat) : Except Err (Nat × Nat) :=
  deserializeLoop buf 8 0 0 it

end tools

/-- `std::distance(it, end)`. -/
def distance (it end_ : Nat) : Int := (end_ : Int) - (it : Int)

/-- `static_cast<std::ptrdiff_t>(size)` of a 64-bit unsigned number. -/
def toPtrdiff (size : Nat) : Int :=
  if size % 2 ^ 64 < 2 ^ 63 then ((size % 2 ^ 64 : Nat) : Int) else ((size % 2 ^ 64 : Nat) : Int) - 2 ^ 64

/-- The loop of `BaseType<StringType, std::string>::serialize` over the chars. -/
def pushChars : List Byte → Buffer → Buffer
  | [], buff => buff
  | c :: cs, buff => pushChars cs (buff ++ [c])

mutual
/-- `Any::serialize`, with `BaseType::serialize` of the alternative held unfolded. -/
def Any.serialize : Any → Buffer → Buffer
  | .integer value_, buff => tools.serialize value_ (tools.serialize TypeId.Uint.toId buff)
  | .float bits, buff => tools.serialize bits (tools.serialize TypeId.Float.toId buff)
  | .string value_, buff =>
    pushChars value_ (tools.serialize (value_.length % 2 ^ 64) (tools.serialize TypeId.String.toId buff))
  | .vector value_, buff =>
    serializeItems value_ (tools.serialize (value_.length % 2 ^ 64) (tools.serialize TypeId.Vector.toId buff))
/-- The loop `for (const auto& item : value_) item.serialize(buff)`. -/
def serializeItems : List Any → Buffer → Buffer
  | [], buff => buff
  | item :: rest, buff => serializeItems rest (item.serialize buff)
end

/-- The tag check at the head of `BaseType<T, ValueType>::deserialize`, shared by the four
instances: the iterator behind the type id, or the exception. -/
def BaseType.deserializeId (T : TypeId) (buf : Buffer) (begin end_ : Nat) : Except Err Nat :=
  let it := begin
  if distance it end_ < 8 then .error .tooSmallForTypeId
  else
    match tools.deserialize buf it with
    | .error e => .error e
    | .ok (id, it) =>
      if id ≠ T.toId then .error .typeIdMismatch else .ok it

/-- `BaseType<T, ValueType>::deserialize` for an arithmetic `ValueType` (`IntegerType`,
`FloatType`): the `value_` after the call and the returned iterator or the exception. -/
def BaseType.deserializeArithmetic (T : TypeId) (buf : Buffer) (value_ : Nat) (begin end_ : Nat) :
    Nat × Except Err Nat :=
  match BaseType.deserializeId T buf begin end_ with
  | .error e => (value_, .error e)
  | .ok it =>
    if distance it end_ < 8 then (value_, .error .tooSmallForValue)
    else
      match tools.deserialize buf it with
      | .error e => (value_, .error e)
      | .ok (v, it) => (v, .ok it)

/-- `IntegerType::deserialize`. -/
def IntegerType.deserialize (buf : Buffer) (value_ : Nat) (begin end_ : Nat) :
    Nat × Except Err Nat :=
  BaseType.deserializeArithmetic .Uint buf value_ begin end_

/-- `FloatType::deserialize`; the `double` is its bit pattern. -/
def FloatType.deserialize (buf : Buffer) (bits : Nat) (begin end_ : Nat) :
    Nat × Except Err Nat :=
  BaseType.deserializeArithmetic .Float buf bits begin end_

/-- The part of `BaseType<T, ValueType>::deserialize` shared by `StringType` and
`VectorType` up to the check of the declared size: the size read and the iterator behind
it, or the exception. Nothing has been assigned to `value_` yet. -/
def BaseType.deserializeSize (T : TypeId) (buf : Buffer) (begin end_ : Nat) :
    Except Err (Nat × Nat) :=
  match BaseType.deserializeId T buf begin end_ with
  | .error e => .error e
  | .ok it =>
    if distance it end_ < 8 then .error .tooSmallForSize
    else
      match tools.deserialize buf it with
      | .error e => .error e
      | .ok (size, it) =>
        if distance it end_ < toPtrdiff size then .error .tooSmallForData
        else .ok (size, it)

/-- The loop `for (i < size) { value_.push_back(*it); ++it; }` of the string instance, `n`
rounds to go. -/
def StringType.deserializeLoop (buf : Buffer) : Nat → Nat → List Byte → List Byte × Except Err Nat
  | 0, it, value_ => (value_, .ok it)
  | n + 1, it, value_ =>
    match buf[it]? with
    | none => (value_, .error .outOfBounds)
    | some b => StringType.deserializeLoop buf n (it + 1) (value_ ++ [b])

/-- `StringType::deserialize`: the `value_` after the call and the returned iterator or the
exception. -/
def StringType.deserialize (L : Limits) (buf : Buffer) (value_ : List Byte) (begin end_ : Nat) :
    List Byte × Except Err Nat :=
  match BaseType.deserializeSize .String buf begin end_ with
  | .error e => (value_, .error e)
  | .ok (size, it) =>
    -- value_.clear(); value_.reserve(size);
    if L.stringMax < size then ([], .error .lengthError)
    else StringType.deserializeLoop buf size it []

/-- The loop `for (i < size) { Any any; it = any.deserialize(it, end); push_back(any); }`,
`n` rounds to go, used by `VectorType::deserialize` and by `Serializator::deserialize`;
`dec it` is `any.deserialize(it, end)` on a default-constructed `any`. -/
def deserializeItems (dec : Nat → Any × Except Err Nat) :
    Nat → Nat → List Any → List Any × Except Err Nat
  | 0, it, value_ => (value_, .ok it)
  | n + 1, it, value_ =>
    match dec it with
    | (_, .error e) => (value_, .error e)
    | (any, .ok it) => deserializeItems dec n it (value_ ++ [any])

/-- `VectorType::deserialize` with the decoder of the elements passed in. -/
def VectorType.deserializeWith (dec : Nat → Any × Except Err Nat) (L : Limits) (buf : Buffer)
    (value_ : List Any) (begin end_ : Nat) : List Any × Except Err Nat :=
  match BaseType.deserializeSize .Vector buf begin end_ with
  | .error e => (value_, .error e)
  | .ok (size, it) =>
    -- value_.clear(); value_.reserve(size);
    if L.vectorMax < size then ([], .error .lengthError)
    else deserializeItems dec size it []

/-- `Any::deserialize` with at most `fuel` levels of nesting: the `data_` after the call
and the returned iterator or the exception. `data_` is assigned only after the local `val`
was decoded. -/
def Any.deserializeFuel (L : Limits) (buf : Buffer) :
    Nat → Any → Nat → Nat → Any × Except Err Nat
  | 0, data_, _, _ => (data_, .error .outOfFuel)
  | fuel + 1, data_, begin, end_ =>
    if distance begin end_ < 8 then (data_, .error .invalidBufferSize)
    else
      match tools.deserialize buf begin with
      | .error e => (data_, .error e)
      | .ok (id, _) =>
        if id = TypeId.Uint.toId then
          match IntegerType.deserialize buf 0 begin end_ with
          | (_, .error e) => (data_, .error e)
          | (val, .ok it) => (.integer val, .ok it)
        else if id = TypeId.Float.toId then
          match FloatType.deserialize buf 0 begin end_ with
          | (_, .error e) => (data_, .error e)
          | (val, .ok it) => (.float val, .ok it)
        else if id = TypeId.String.toId then
          match StringType.deserialize L buf [] begin end_ with
          | (_, .error e) => (data_, .error e)
          | (val, .ok it) => (.string val, .ok it)
        else if id = TypeId.Vector.toId then
          match VectorType.deserializeWith
              (fun it => Any.deserializeFuel L buf fuel (.integer 0) it end_) L buf [] begin end_ with
          | (_, .error e) => (data_, .error e)
          | (val, .ok it) => (.vector val, .ok it)
        else (data_, .error .unknownTypeId)

/-- The nesting bound that suffices for the range `[begin, end_)`. -/
def fuelFor (begin end_ : Nat) : Nat := end_ - begin + 1

/-- `Any::deserialize(begin, end)`. -/
def Any.deserialize (L : Limits) (buf : Buffer) (data_ : Any) (begin end_ : Nat) :
    Any × Except Err Nat :=
  Any.deserializeFuel L buf (fuelFor begin end_) data_ begin end_

/-- `VectorType::deserialize(begin, end)`. -/
def VectorType.deserialize (L : Limits) (buf : Buffer) (value_ : List Any) (begin end_ : Nat) :
    List Any × Except Err Nat :=
  VectorType.deserializeWith (fun it => Any.deserialize L buf (.integer 0) it end_) L buf
    value_ begin end_

/-- `Serializator::push`: `storage_.emplace_back(val)`. -/
def Serializator.push (storage_ : List Any) (val : Any) : List Any := storage_ ++ [val]

/-- `Serializator::serialize`. -/
def Serializator.serialize (storage_ : List Any) : Buffer :=
  serializeItems storage_ (tools.serialize (storage_.length % 2 ^ 64) [])

/-- `Serializator::deserialize(val)`; the count is read without any check of the size of
the buffer. -/
def Serializator.deserialize (L : Limits) (val : Buffer) : Except Err (List Any) :=
  match tools.deserialize val 0 with
  | .error e => .error e
  | .ok (size, it) =>
    -- result.reserve(size);
    if L.vectorMax < size then .error .lengthError
    else
      match deserializeItems (fun it => Any.deserialize L val (.integer 0) it val.length) size it [] with
      | (_, .error e) => .error e
      | (result, .ok _) => .ok result

/-- `Serializator::getStorage` after pushing the elements of `vals` in order into a
`Serializator` holding `storage_`. -/
def Serializator.pushAll (storage_ : List Any) : List Any → List Any
  | [] => storage_
  | val :: rest => Serializator.pushAll (Serializator.push storage_ val) rest

/-- The 8 bytes of a 64-bit number, least significant first. -/
def le64 (x : Nat) : Buffer :=
  [Fin.ofNat x, Fin.ofNat (x / 2 ^ 8), Fin.ofNat (x / 2 ^ 16), Fin.ofNat (x / 2 ^ 24),
   Fin.ofNat (x / 2 ^ 32), Fin.ofNat (x / 2 ^ 40), Fin.ofNat (x / 2 ^ 48), Fin.ofNat (x / 2 ^ 56)]

/-- The packet of the header comment of `main.cpp`. -/
def examplePacket : Buffer :=
  [0x01,0x00,0x00,0x00,0x00,0x00,0x00,0x00,
   0x03,0x00,0x00,0x00,0x00,0x00,0x00,0x00,
   0x02,0x00,0x00,0x00,0x00,0x00,0x00,0x00,
   0x02,0x00,0x00,0x00,0x00,0x00,0x00,0x00,
   0x06,0x00,0x00,0x00,0x00,0x00,0x00,0x00,
   0x71,0x77,0x65,0x72,0x74,0x79,0x00,0x00,
   0x00,0x00,0x00,0x00,0x00,0x00,0x94,0x88,
   0x01,0x00,0x00,0x00,0x00,0x00]

/-- `VectorType(StringType("qwerty"), IntegerType(100500))`. -/
def exampleValue : Any :=
  .vector [.string [0x71, 0x77, 0x65, 0x72, 0x74, 0x79], .integer 100500]

/-- The NaN test on the bit pattern of a `double`: exponent bits all set, fraction not
zero. -/
def doubleIsNaN (bits : Nat) : Bool :=
  (bits / 2 ^ 52) % 2 ^ 11 == 2 ^ 11 - 1 && bits % 2 ^ 52 != 0

/-- The built-in `==` of two `double`s (IEEE-754), on their bit patterns: a NaN is equal to
nothing, the two zeros are equal, otherwise the patterns are compared. -/
def doubleEq (a b : Nat) : Bool :=
  !doubleIsNaN a && !doubleIsNaN b && (a == b || (a % 2 ^ 63 == 0 && b % 2 ^ 63 == 0))

mutual
/-- `Any::operator==`: `data_ == other.data_` of the variants, which compares the
alternatives held and then calls `BaseType::operator==` (`value_ == other.value_`). -/
def Any.eq : Any → Any → Bool
  | .integer a, .integer b => a == b
  | .float a, .float b => doubleEq a b
  | .string a, .string b => a == b
  | .vector a, .vector b => eqItems a b
  | _, _ => false
/-- `operator==` of two `std::vector<Any>`: equal sizes and pairwise equal elements. -/
def eqItems : List Any → List Any → Bool
  | [], [] => true
  | a :: as, b :: bs => a.eq b && eqItems as bs
  | _, _ => false
end

mutual
/-- Whether a `FloatType` holding a NaN occurs in the value. -/
def Any.hasNaN : Any → Bool
  | .integer _ => false
  | .float bits => doubleIsNaN bits
  | .string _ => false
  | .vector value_ => itemsHaveNaN value_
/-- Whether a `FloatType` holding a NaN occurs in one of the values. -/
def itemsHaveNaN : List Any → Bool
  | [] => false
  | a :: as => a.hasNaN || itemsHaveNaN as
end

mutual
/-- The invariant of the C++ types: the numbers are 64-bit, a string and a vector are no
longer than their `max_size()`. -/
def Any.valid (L : Limits) : Any → Bool
  | .integer value_ => decide (value_ < 2 ^ 64)
  | .float bits => decide (bits < 2 ^ 64)
  | .string value_ => decide (value_.length ≤ L.stringMax)
  | .vector value_ => decide (value_.length ≤ L.vectorMax) && itemsValid L value_
/-- All the values satisfy the invariant of the C++ types. -/
def itemsValid (L : Limits) : List Any → Bool
  | [] => true
  | a :: as => a.valid L && itemsValid L as
end

/-- The content of a `Serializator` is a `std::vector<Any>`. -/
def Serializator.valid (L : Limits) (storage_ : List Any) : Bool :=
  decide (storage_.length ≤ L.vectorMax) && itemsValid L storage_

mutual
/-- The wire form of a value: tag, then payload. -/
def Any.wire : Any → Buffer
  | .integer value_ => le64 0 ++ le64 value_
  | .float bits => le64 1 ++ le64 bits
  | .string value_ => le64 2 ++ le64 value_.length ++ value_
  | .vector value_ => le64 3 ++ le64 value_.length ++ itemsWire value_
/-- The wire forms of the values one after the other. -/
def itemsWire : List Any → Buffer
  | [] => []
  | a :: as => a.wire ++ itemsWire as
end

mutual
/-- The depth of nesting of a value, a scalar counting 1. -/
def Any.depth : Any → Nat
  | .integer _ => 1
  | .float _ => 1
  | .string _ => 1
  | .vector value_ => itemsDepth value_ + 1
/-- The greatest depth among the values. -/
def itemsDepth : List Any → Nat
  | [] => 0
  | a :: as => max a.depth (itemsDepth as)
end

/-- The buffer holds the bytes `bs` from index `it` on. -/
def HasAt (buf : Buffer) (it : Nat) (bs : Buffer) : Prop := bs <+: buf.drop it

/-- The value of 8 bytes read least significant first. -/
def ofLe64 : Buffer → Nat
  | [] => 0
  | b :: bs => b.val + 256 * ofLe64 bs

/-- The buffer with the bytes from index `off` on overwritten by `bs`. -/
def overwrite (buf : Buffer) (off : Nat) (bs : Buffer) : Buffer :=
  buf.take off ++ bs ++ buf.drop (off + bs.length)

mutual
/-- The indices of the tag fields of a value and of all the values nested in it, the wire
form of the value starting at index `base`. -/
def Any.tagOffsets : Any → Nat → List Nat
  | .integer _, base => [base]
  | .float _, base => [base]
  | .string _, base => [base]
  | .vector value_, base => base :: itemsTagOffsets value_ (base + 16)
/-- The indices of the tag fields of the values, laid out one after the other from index
`base` on, and of all the values nested in them. -/
def itemsTagOffsets : List Any → Nat → List Nat
  | [], _ => []
  | a :: as, base => a.tagOffsets base ++ itemsTagOffsets as (base + a.wire.length)
end

/-- Every successful call of the element decoder has read the wire form of a value that
satisfies the invariant, from its start to the returned iterator, inside the range. -/
def DecSound (L : Limits) (buf : Buffer) (e fuel : Nat) (dec : Nat → Any × Except Err Nat) : Prop :=
  ∀ it a c, dec it = (a, .ok c) →
    a.valid L = true ∧ HasAt buf it a.wire ∧ c = it + a.wire.length ∧ c ≤ e ∧ a.depth ≤ fuel

/-- From index `b` on the buffer holds the first `k` bytes of `w`, fewer than all of them,
and then ends. -/
def TruncAt (buf : Buffer) (b : Nat) (w : Buffer) (k : Nat) : Prop :=
  k < w.length ∧ buf.drop b = w.take k

/-- The errors in which `Any::deserialize` can end on a range that ends at index `e`: the
underrun errors of the generic path, the unknown tag, the `std::length_error` of `reserve`,
and the read outside the buffer, the last only on a range that is not inside the buffer. -/
def ViaAny (buf : Buffer) (e : Nat) (err : Err) : Prop :=
  err = .invalidBufferSize ∨ err = .tooSmallForValue ∨ err = .tooSmallForSize ∨
    err = .tooSmallForData ∨ err = .unknownTypeId ∨ err = .lengthError ∨
    (err = .outOfBounds ∧ buf.length < e)

/-- A quiet NaN. -/
def nanBits : Nat := 0x7FF8000000000000

/-! ## Induction over values -/

theorem Any.induction {P : Any → Prop} (hi : ∀ n, P (.integer n)) (hf : ∀ b, P (.float b))
    (hs : ∀ s, P (.string s)) (hv : ∀ xs, (∀ x ∈ xs, P x) → P (.vector xs)) : ∀ v, P v := by
  intro v
  refine @Any.rec P (fun xs => ∀ x ∈ xs, P x) hi hf hs hv ?_ ?_ v
  · intro x hx
    cases hx
  · intro a as ha has x hx
    rcases List.mem_cons.1 hx with h | h
    · exact h ▸ ha
    · exact has x h

/-! ## Little-endian numbers -/

theorem le64_length (x : Nat) : (le64 x).length = 8 := rfl

theorem ofNat_and_shift (x i : Nat) :
    (Fin.ofNat ((x >>> i) &&& 0xFF) : Byte) = Fin.ofNat (x / 2 ^ i) := by
  apply Fin.ext
  have h : (0xFF : Nat) = 2 ^ 8 - 1 := by norm_num
  simp only [Fin.ofNat, h, Nat.and_pow_two_sub_one_eq_mod, Nat.shiftRight_eq_div_pow]
  omega

theorem tools.serialize_eq_le64 (x : Nat) (buff : Buffer) : tools.serialize x buff = buff ++ le64 x := by
  simp only [tools.serialize, tools.serializeLoop, ofNat_and_shift, le64, List.append_assoc,
    List.singleton_append, List.cons_append, List.nil_append]
  simp

theorem or_shift (a b k : Nat) (h : a < 2 ^ k) : a ||| (b <<< k) = a + b * 2 ^ k := by
  rw [Nat.shiftLeft_eq, Nat.lor_comm, Nat.mul_comm, ← Nat.mul_add_lt_is_or h]
  omega

theorem ofLe64_lt (bs : Buffer) : ofLe64 bs < 256 ^ bs.length := by
  induction bs with
  | nil => simp [ofLe64]
  | cons b bs ih =>
    have hb := b.isLt
    simp only [ofLe64, List.length_cons, pow_succ]
    omega

theorem ofLe64_le64 (x : Nat) : ofLe64 (le64 x) = x % 2 ^ 64 := by
  simp only [le64, ofLe64, Fin.ofNat]
  omega

theorem le64_ofLe64 (bs : Buffer) (h : bs.length = 8) : le64 (ofLe64 bs) = bs := by
  match bs, h with
  | [b0, b1, b2, b3, b4, b5, b6, b7], _ =>
    have h0 := b0.isLt
    have h1 := b1.isLt
    have h2 := b2.isLt
    have h3 := b3.isLt
    have h4 := b4.isLt
    have h5 := b5.isLt
    have h6 := b6.isLt
    have h7 := b7.isLt
    simp only [le64, ofLe64, Fin.ofNat, List.cons.injEq, and_true]
    refine ⟨?_, ?_, ?_, ?_, ?_, ?_, ?_, ?_⟩ <;> apply Fin.ext <;> simp only <;> omega

theorem le64_mod (x : Nat) : le64 (x % 2 ^ 64) = le64 x := by
  simp only [le64, Fin.ofNat, List.cons.injEq, and_true]
  refine ⟨?_, ?_, ?_, ?_, ?_, ?_, ?_, ?_⟩ <;> apply Fin.ext <;> simp only <;> omega

theorem le64_mod_lit (x : Nat) : le64 (x % 18446744073709551616) = le64 x := le64_mod x

theorem le64_injective (x y : Nat) (hx : x < 2 ^ 64) (hy : y < 2 ^ 64) (h : le64 x = le64 y) :
    x = y := by
  have h1 := ofLe64_le64 x
  have h2 := ofLe64_le64 y
  rw [h] at h1
  omega

/-! ## Bytes at an index -/

theorem hasAt_nil (buf : Buffer) (it : Nat) : HasAt buf it [] := List.nil_prefix

theorem hasAt_cons (buf : Buffer) (it : Nat) (b : Byte) (bs : Buffer) :
    HasAt buf it (b :: bs) ↔ buf[it]? = some b ∧ HasAt buf (it + 1) bs := by
  unfold HasAt
  by_cases h : it < buf.length
  · rw [List.drop_eq_getElem_cons h, List.cons_prefix_cons, List.getElem?_eq_getElem h]
    simp [eq_comm]
  · have h1 : buf.drop it = [] := List.drop_eq_nil_of_le (by omega)
    have h2 : buf[it]? = none := List.getElem?_eq_none (by omega)
    simp [h1, h2]

theorem hasAt_append (buf : Buffer) (it : Nat) (a b : Buffer) :
    HasAt buf it (a ++ b) ↔ HasAt buf it a ∧ HasAt buf (it + a.length) b := by
  induction a generalizing it with
  | nil => simp [hasAt_nil]
  | cons x xs ih =>
    simp only [List.cons_append, hasAt_cons, ih, List.length_cons, and_assoc]
    have : it + 1 + xs.length = it + (xs.length + 1) := by omega
    rw [this]

theorem HasAt.length_le {buf : Buffer} {it : Nat} {bs : Buffer} (h : HasAt buf it bs) :
    bs.length ≤ buf.length - it := by
  have := List.IsPrefix.length_le h
  simpa using this

theorem hasAt_take (buf : Buffer) (it n : Nat) (h : it + n ≤ buf.length) :
    HasAt buf it ((buf.drop it).take n) ∧ ((buf.drop it).take n).length = n := by
  refine ⟨List.take_prefix _ _, ?_⟩
  simp only [List.length_take, List.length_drop]
  omega

theorem HasAt.eq_take {buf : Buffer} {it : Nat} {bs : Buffer} (h : HasAt buf it bs) :
    bs = (buf.drop it).take bs.length := List.prefix_iff_eq_take.1 h

theorem hasAt_le64_unique {buf : Buffer} {it x y : Nat} (hx : x < 2 ^ 64) (hy : y < 2 ^ 64)
    (h1 : HasAt buf it (le64 x)) (h2 : HasAt buf it (le64 y)) : x = y := by
  have e1 := h1.eq_take
  have e2 := h2.eq_take
  rw [le64_length] at e1 e2
  exact le64_injective x y hx hy (e1.trans e2.symm)

/-! ## The primitive decoder -/

theorem tools.deserializeLoop_ok (buf : Buffer) :
    ∀ (n i value it : Nat) (bs : Buffer), bs.length = n → HasAt buf it bs → value < 2 ^ (i * 8) →
      tools.deserializeLoop buf n i value it = .ok (value + ofLe64 bs * 2 ^ (i * 8), it + n) := by
  intro n
  induction n with
  | zero =>
    intro i value it bs hlen _ _
    have : bs = [] := List.length_eq_zero.1 hlen
    subst this
    simp [tools.deserializeLoop, ofLe64]
  | succ n ih =>
    intro i value it bs hlen hat hv
    match bs, hlen with
    | b :: bs, hlen =>
      rw [hasAt_cons] at hat
      have hb := b.isLt
      have hv2 : value ||| (b.val <<< (i * 8)) < 2 ^ ((i + 1) * 8) := by
        rw [or_shift _ _ _ hv]
        have : 2 ^ ((i + 1) * 8) = 256 * 2 ^ (i * 8) := by
          rw [Nat.add_mul, pow_add]; norm_num; ring
        rw [this]
        nlinarith
      simp only [tools.deserializeLoop, hat.1]
      rw [ih (i + 1) _ (it + 1) bs (by simpa using hlen) hat.2 hv2, or_shift _ _ _ hv]
      have : 2 ^ ((i + 1) * 8) = 256 * 2 ^ (i * 8) := by
        rw [Nat.add_mul, pow_add]; norm_num; ring
      simp only [ofLe64, this, Except.ok.injEq, Prod.mk.injEq]
      constructor
      · ring
      · omega

theorem tools.deserializeLoop_error (buf : Buffer) :
    ∀ (n i value it : Nat), 0 < n → buf.length < it + n →
      tools.deserializeLoop buf n i value it = .error .outOfBounds := by
  intro n
  induction n with
  | zero => intro i value it h0 h; omega
  | succ n ih =>
    intro i value it _ h
    simp only [tools.deserializeLoop]
    cases hb : buf[it]? with
    | none => rfl
    | some b =>
      have hlt : it < buf.length := by
        by_contra hc
        have hc2 : buf.length ≤ it := by omega
        rw [List.getElem?_eq_none hc2] at hb
        cases hb
      exact ih _ _ _ (by omega) (by omega)

theorem tools.deserialize_of_le (buf : Buffer) (it : Nat) (h : it + 8 ≤ buf.length) :
    tools.deserialize buf it = .ok (ofLe64 ((buf.drop it).take 8), it + 8) := by
  have h1 := hasAt_take buf it 8 h
  have := tools.deserializeLoop_ok buf 8 0 0 it _ h1.2 h1.1 (by norm_num)
  simpa [tools.deserialize] using this

theorem tools.deserialize_of_lt (buf : Buffer) (it : Nat) (h : buf.length < it + 8) :
    tools.deserialize buf it = .error .outOfBounds :=
  tools.deserializeLoop_error buf 8 0 0 it (by norm_num) h

theorem tools.deserialize_ok_iff (buf : Buffer) (it x c : Nat) :
    tools.deserialize buf it = .ok (x, c) ↔ c = it + 8 ∧ x < 2 ^ 64 ∧ HasAt buf it (le64 x) := by
  constructor
  · intro h
    by_cases hle : it + 8 ≤ buf.length
    · rw [tools.deserialize_of_le buf it hle] at h
      have h1 := hasAt_take buf it 8 hle
      simp only [Except.ok.injEq, Prod.mk.injEq] at h
      have hlt := ofLe64_lt ((buf.drop it).take 8)
      rw [h1.2] at hlt
      refine ⟨h.2.symm, ?_, ?_⟩
      · rw [← h.1]; norm_num at hlt ⊢; exact hlt
      · rw [← h.1, le64_ofLe64 _ h1.2]; exact h1.1
    · rw [tools.deserialize_of_lt buf it (by omega)] at h
      cases h
  · rintro ⟨hc, hx, hat⟩
    have := tools.deserializeLoop_ok buf 8 0 0 it _ (le64_length x) hat (by norm_num)
    rw [ofLe64_le64, Nat.mod_eq_of_lt hx] at this
    simpa [tools.deserialize, hc] using this

theorem tools.deserialize_error (buf : Buffer) (it : Nat) (e : Err)
    (h : tools.deserialize buf it = .error e) : e = .outOfBounds ∧ buf.length < it + 8 := by
  by_cases hle : it + 8 ≤ buf.length
  · rw [tools.deserialize_of_le buf it hle] at h
    cases h
  · rw [tools.deserialize_of_lt buf it (by omega)] at h
    simp only [Except.error.injEq] at h
    exact ⟨h.symm, by omega⟩

/-! ## The encoder and the wire form -/

theorem pushChars_eq (cs : List Byte) (buff : Buffer) : pushChars cs buff = buff ++ cs := by
  induction cs generalizing buff with
  | nil => simp [pushChars]
  | cons c cs ih => simp [pushChars, ih]

theorem serializeItems_eq_of (xs : List Any)
    (h : ∀ x ∈ xs, ∀ buff, x.serialize buff = buff ++ x.wire) (buff : Buffer) :
    serializeItems xs buff = buff ++ itemsWire xs := by
  induction xs generalizing buff with
  | nil => simp [serializeItems, itemsWire]
  | cons x xs ih =>
    simp only [serializeItems, itemsWire]
    rw [h x (List.mem_cons_self _ _), ih (fun y hy => h y (List.mem_cons_of_mem _ hy))]
    simp

theorem Any.serialize_eq (v : Any) : ∀ buff, v.serialize buff = buff ++ v.wire := by
  induction v using Any.induction with
  | hi n => intro buff; simp [Any.serialize, Any.wire, tools.serialize_eq_le64, TypeId.toId]
  | hf b => intro buff; simp [Any.serialize, Any.wire, tools.serialize_eq_le64, TypeId.toId]
  | hs s =>
    intro buff
    simp [Any.serialize, Any.wire, tools.serialize_eq_le64, TypeId.toId, pushChars_eq, le64_mod_lit]
  | hv xs ih =>
    intro buff
    simp [Any.serialize, Any.wire, tools.serialize_eq_le64, TypeId.toId, serializeItems_eq_of xs ih,
      le64_mod_lit]

theorem serializeItems_eq (xs : List Any) (buff : Buffer) :
    serializeItems xs buff = buff ++ itemsWire xs :=
  serializeItems_eq_of xs (fun x _ => x.serialize_eq) buff

theorem Serializator.serialize_eq_wire (storage_ : List Any) :
    Serializator.serialize storage_ = le64 storage_.length ++ itemsWire storage_ := by
  simp [Serializator.serialize, serializeItems_eq, tools.serialize_eq_le64, le64_mod_lit]

theorem Serializator.pushAll_eq (storage_ vals : List Any) :
    Serializator.pushAll storage_ vals = storage_ ++ vals := by
  induction vals generalizing storage_ with
  | nil => simp [Serializator.pushAll]
  | cons v vs ih => simp [Serializator.pushAll, Serializator.push, ih]

theorem itemsWire_append (xs ys : List Any) : itemsWire (xs ++ ys) = itemsWire xs ++ itemsWire ys := by
  induction xs with
  | nil => simp [itemsWire]
  | cons x xs ih => simp [itemsWire, ih]

theorem Any.wire_length_ge (v : Any) : 16 ≤ v.wire.length := by
  cases v <;> simp [Any.wire, le64_length] <;> omega

theorem itemsWire_length_ge (xs : List Any) : 16 * xs.length ≤ (itemsWire xs).length := by
  induction xs with
  | nil => simp
  | cons x xs ih =>
    have := x.wire_length_ge
    simp only [itemsWire, List.length_cons, List.length_append]
    omega

theorem itemsDepth_le_of (xs : List Any) (h : ∀ x ∈ xs, 16 * x.depth ≤ x.wire.length) :
    16 * itemsDepth xs ≤ (itemsWire xs).length := by
  induction xs with
  | nil => simp [itemsDepth]
  | cons x xs ih =>
    have h1 := h x (List.mem_cons_self _ _)
    have h2 := ih (fun y hy => h y (List.mem_cons_of_mem _ hy))
    simp only [itemsDepth, itemsWire, List.length_append]
    omega

theorem Any.depth_le (v : Any) : 16 * v.depth ≤ v.wire.length := by
  induction v using Any.induction with
  | hi n => simp [Any.depth, Any.wire, le64_length]
  | hf b => simp [Any.depth, Any.wire, le64_length]
  | hs s => simp only [Any.depth, Any.wire, le64_length, List.length_append]; omega
  | hv xs ih =>
    have := itemsDepth_le_of xs ih
    simp only [Any.depth, Any.wire, List.length_append, le64_length]
    omega

theorem itemsDepth_le (xs : List Any) : 16 * itemsDepth xs ≤ (itemsWire xs).length :=
  itemsDepth_le_of xs (fun x _ => x.depth_le)

theorem itemsDepth_append (xs ys : List Any) :
    itemsDepth (xs ++ ys) = max (itemsDepth xs) (itemsDepth ys) := by
  induction xs with
  | nil => simp [itemsDepth]
  | cons x xs ih => rw [List.cons_append, itemsDepth, ih, itemsDepth]; omega

theorem itemsValid_append (L : Limits) (xs ys : List Any) :
    itemsValid L (xs ++ ys) = (itemsValid L xs && itemsValid L ys) := by
  induction xs with
  | nil => simp [itemsValid]
  | cons x xs ih => simp [itemsValid, ih, Bool.and_assoc]

/-! ## The concrete decoders -/

theorem toPtrdiff_of_lt (size : Nat) (h : size < 2 ^ 63) : toPtrdiff size = (size : Int) := by
  have h1 : size % 2 ^ 64 = size := Nat.mod_eq_of_lt (by omega)
  unfold toPtrdiff
  rw [h1, if_pos h]

theorem toPtrdiff_of_ge (size : Nat) (h : 2 ^ 63 ≤ size) (h2 : size < 2 ^ 64) :
    toPtrdiff size < 0 := by
  have h1 : size % 2 ^ 64 = size := Nat.mod_eq_of_lt h2
  have h3 : ¬ size < 2 ^ 63 := by omega
  simp only [toPtrdiff, h1, h3, if_false]
  omega

theorem BaseType.deserializeId_ok_iff (T : TypeId) (buf : Buffer) (b e it : Nat) :
    BaseType.deserializeId T buf b e = .ok it ↔
      b + 8 ≤ e ∧ it = b + 8 ∧ HasAt buf b (le64 T.toId) := by
  have hT : T.toId < 2 ^ 64 := by cases T <;> simp [TypeId.toId]
  unfold BaseType.deserializeId distance
  by_cases hd : (e : Int) - (b : Int) < 8
  · simp only [hd, if_true]
    constructor
    · intro h; cases h
    · intro h; omega
  · simp only [hd, if_false]
    cases hr : tools.deserialize buf b with
    | error err =>
      simp only
      constructor
      · intro h; cases h
      · rintro ⟨_, _, hat⟩
        rw [(tools.deserialize_ok_iff buf b T.toId (b + 8)).2 ⟨rfl, hT, hat⟩] at hr
        cases hr
    | ok r =>
      obtain ⟨id, c⟩ := r
      obtain ⟨hc, hid, hat⟩ := (tools.deserialize_ok_iff buf b id c).1 hr
      simp only
      by_cases hne : id = T.toId
      · subst hne
        simp only [ne_eq, not_true_eq_false, if_false, Except.ok.injEq]
        constructor
        · intro h; exact ⟨by omega, by omega, hat⟩
        · intro h; omega
      · simp only [ne_eq, hne, not_false_eq_true, if_true]
        constructor
        · intro h; cases h
        · rintro ⟨_, _, hat2⟩
          have := (tools.deserialize_ok_iff buf b T.toId (b + 8)).2 ⟨rfl, hT, hat2⟩
          rw [hr] at this
          simp only [Except.ok.injEq, Prod.mk.injEq] at this
          exact absurd this.1 hne

theorem BaseType.deserializeArithmetic_ok_iff (T : TypeId) (buf : Buffer) (v0 b e v c : Nat) :
    BaseType.deserializeArithmetic T buf v0 b e = (v, .ok c) ↔
      b + 16 ≤ e ∧ c = b + 16 ∧ v < 2 ^ 64 ∧ HasAt buf b (le64 T.toId ++ le64 v) := by
  unfold BaseType.deserializeArithmetic
  rw [hasAt_append, le64_length]
  cases hid : BaseType.deserializeId T buf b e with
  | error err =>
    simp only [Prod.mk.injEq, false_iff, reduceCtorEq, and_false]
    rintro ⟨h1, _, _, h2, _⟩
    rw [(BaseType.deserializeId_ok_iff T buf b e (b + 8)).2 ⟨by omega, rfl, h2⟩] at hid
    cases hid
  | ok it =>
    obtain ⟨h1, h2, h3⟩ := (BaseType.deserializeId_ok_iff T buf b e it).1 hid
    subst h2
    simp only [distance]
    by_cases hd : (e : Int) - ((b + 8 : Nat) : Int) < 8
    · simp only [hd, if_true, Prod.mk.injEq, reduceCtorEq, and_false, false_iff]
      intro h; omega
    · simp only [hd, if_false]
      cases hr : tools.deserialize buf (b + 8) with
      | error err =>
        simp only [Prod.mk.injEq, reduceCtorEq, and_false, false_iff]
        rintro ⟨_, _, hv, _, hat⟩
        rw [(tools.deserialize_ok_iff buf (b + 8) v (b + 8 + 8)).2 ⟨rfl, hv, hat⟩] at hr
        cases hr
      | ok r =>
        obtain ⟨x, c2⟩ := r
        obtain ⟨hc, hx, hat⟩ := (tools.deserialize_ok_iff buf (b + 8) x c2).1 hr
        simp only [Prod.mk.injEq, Except.ok.injEq]
        constructor
        · rintro ⟨rfl, rfl⟩
          exact ⟨by omega, by omega, hx, h3, hat⟩
        · rintro ⟨_, hc3, hv, _, hat2⟩
          have := (tools.deserialize_ok_iff buf (b + 8) v (b + 8 + 8)).2 ⟨rfl, hv, hat2⟩
          rw [hr] at this
          simp only [Except.ok.injEq, Prod.mk.injEq] at this
          exact ⟨this.1, by omega⟩

theorem BaseType.deserializeSize_ok_iff (T : TypeId) (buf : Buffer) (b e size it : Nat) :
    BaseType.deserializeSize T buf b e = .ok (size, it) ↔
      b + 16 ≤ e ∧ it = b + 16 ∧ size < 2 ^ 64 ∧ HasAt buf b (le64 T.toId ++ le64 size) ∧
        ¬ ((e : Int) - ((b + 16 : Nat) : Int) < toPtrdiff size) := by
  unfold BaseType.deserializeSize
  rw [hasAt_append, le64_length]
  cases hid : BaseType.deserializeId T buf b e with
  | error err =>
    simp only [false_iff, reduceCtorEq]
    rintro ⟨h1, _, _, ⟨h2, _⟩, _⟩
    rw [(BaseType.deserializeId_ok_iff T buf b e (b + 8)).2 ⟨by omega, rfl, h2⟩] at hid
    cases hid
  | ok it0 =>
    obtain ⟨h1, h2, h3⟩ := (BaseType.deserializeId_ok_iff T buf b e it0).1 hid
    subst h2
    simp only [distance]
    by_cases hd : (e : Int) - ((b + 8 : Nat) : Int) < 8
    · simp only [hd, if_true, reduceCtorEq, false_iff]
      intro h; omega
    · simp only [hd, if_false]
      cases hr : tools.deserialize buf (b + 8) with
      | error err =>
        simp only [reduceCtorEq, false_iff]
        rintro ⟨_, _, hv, ⟨_, hat⟩, _⟩
        rw [(tools.deserialize_ok_iff buf (b + 8) size (b + 8 + 8)).2 ⟨rfl, hv, hat⟩] at hr
        cases hr
      | ok r =>
        obtain ⟨x, c2⟩ := r
        obtain ⟨hc, hx, hat⟩ := (tools.deserialize_ok_iff buf (b + 8) x c2).1 hr
        subst hc
        simp only
        by_cases hs : (e : Int) - ((b + 8 + 8 : Nat) : Int) < toPtrdiff x
        · simp only [hs, if_true, reduceCtorEq, false_iff]
          rintro ⟨_, _, hv, ⟨_, hat2⟩, hn⟩
          have := (tools.deserialize_ok_iff buf (b + 8) size (b + 8 + 8)).2 ⟨rfl, hv, hat2⟩
          rw [hr] at this
          simp only [Except.ok.injEq, Prod.mk.injEq] at this
          rw [this.1] at hs
          exact hn hs
        · simp only [hs, if_false, Except.ok.injEq, Prod.mk.injEq]
          constructor
          · rintro ⟨rfl, rfl⟩
            exact ⟨by omega, by omega, hx, ⟨h3, hat⟩, hs⟩
          · rintro ⟨_, hc3, hv, ⟨_, hat2⟩, _⟩
            have := (tools.deserialize_ok_iff buf (b + 8) size (b + 8 + 8)).2 ⟨rfl, hv, hat2⟩
            rw [hr] at this
            simp only [Except.ok.injEq, Prod.mk.injEq] at this
            exact ⟨this.1, by omega⟩

theorem StringType.deserializeLoop_ok_iff (buf : Buffer) :
    ∀ (n it : Nat) (acc res : List Byte) (c : Nat),
      StringType.deserializeLoop buf n it acc = (res, .ok c) ↔
        c = it + n ∧ ∃ bs, bs.length = n ∧ HasAt buf it bs ∧ res = acc ++ bs := by
  intro n
  induction n with
  | zero =>
    intro it acc res c
    simp only [StringType.deserializeLoop, Prod.mk.injEq, Except.ok.injEq, List.length_eq_zero]
    constructor
    · rintro ⟨rfl, rfl⟩
      exact ⟨rfl, [], rfl, hasAt_nil _ _, by simp⟩
    · rintro ⟨rfl, bs, rfl, _, rfl⟩
      simp
  | succ n ih =>
    intro it acc res c
    simp only [StringType.deserializeLoop]
    cases hb : buf[it]? with
    | none =>
      simp only [Prod.mk.injEq, reduceCtorEq, and_false, false_iff]
      rintro ⟨_, bs, hlen, hat, _⟩
      match bs, hlen with
      | x :: xs, _ =>
        rw [hasAt_cons, hb] at hat
        cases hat.1
    | some x =>
      simp only [ih]
      constructor
      · rintro ⟨rfl, bs, hlen, hat, rfl⟩
        refine ⟨by omega, x :: bs, by simp [hlen], ?_, by simp⟩
        rw [hasAt_cons]
        exact ⟨hb, hat⟩
      · rintro ⟨rfl, bs, hlen, hat, rfl⟩
        match bs, hlen with
        | y :: ys, hlen =>
          rw [hasAt_cons, hb] at hat
          have hxy : x = y := by simpa using hat.1
          subst hxy
          exact ⟨by omega, ys, by simpa using hlen, hat.2, by simp⟩

theorem StringType.deserialize_string_ok_iff (L : Limits) (buf : Buffer) (s0 : List Byte) (b e : Nat)
    (s : List Byte) (c : Nat) :
    StringType.deserialize L buf s0 b e = (s, .ok c) ↔
      s.length ≤ L.stringMax ∧ HasAt buf b (le64 2 ++ le64 s.length ++ s) ∧
        c = b + 16 + s.length ∧ c ≤ e := by
  have hL := L.stringMax_lt
  unfold StringType.deserialize
  cases hsz : BaseType.deserializeSize .String buf b e with
  | error err =>
    simp only [Prod.mk.injEq, reduceCtorEq, and_false, false_iff]
    rintro ⟨h1, h2, h3, h4⟩
    rw [hasAt_append] at h2
    have := (BaseType.deserializeSize_ok_iff .String buf b e s.length (b + 16)).2
      ⟨by omega, rfl, by omega, h2.1, by rw [toPtrdiff_of_lt _ (by omega)]; omega⟩
    rw [hsz] at this
    cases this
  | ok r =>
    obtain ⟨size, it⟩ := r
    obtain ⟨h1, h2, h3, h4, h5⟩ := (BaseType.deserializeSize_ok_iff .String buf b e size it).1 hsz
    subst h2
    simp only
    by_cases hm : L.stringMax < size
    · simp only [hm, if_true, Prod.mk.injEq, reduceCtorEq, and_false, false_iff]
      rintro ⟨g1, g2, _, _⟩
      rw [hasAt_append, hasAt_append, le64_length] at g2
      rw [hasAt_append, le64_length] at h4
      have := hasAt_le64_unique h3 (by omega) h4.2 g2.1.2
      omega
    · simp only [hm, if_false, StringType.deserializeLoop_ok_iff, List.nil_append]
      rw [toPtrdiff_of_lt _ (by omega)] at h5
      constructor
      · rintro ⟨rfl, bs, hlen, hat, rfl⟩
        subst hlen
        refine ⟨by omega, ?_, rfl, by omega⟩
        rw [hasAt_append]
        exact ⟨h4, by simpa [le64_length] using hat⟩
      · rintro ⟨g1, g2, g3, g4⟩
        rw [hasAt_append, hasAt_append, le64_length] at g2
        rw [hasAt_append, le64_length] at h4
        have hsz2 := hasAt_le64_unique h3 (by omega) h4.2 g2.1.2
        subst hsz2
        refine ⟨g3, s, rfl, ?_, rfl⟩
        simpa [le64_length] using g2.2

/-! ## Soundness of the decoders: what a successful call has read -/

theorem deserializeItems_sound {L : Limits} {buf : Buffer} {e fuel : Nat}
    {dec : Nat → Any × Except Err Nat} (hdec : DecSound L buf e fuel dec) :
    ∀ (n it : Nat) (acc res : List Any) (c : Nat),
      deserializeItems dec n it acc = (res, .ok c) →
        ∃ xs, res = acc ++ xs ∧ xs.length = n ∧ itemsValid L xs = true ∧
          HasAt buf it (itemsWire xs) ∧ c = it + (itemsWire xs).length ∧ (it ≤ e → c ≤ e) ∧
          itemsDepth xs ≤ fuel := by
  intro n
  induction n with
  | zero =>
    intro it acc res c h
    simp only [deserializeItems, Prod.mk.injEq, Except.ok.injEq] at h
    obtain ⟨rfl, rfl⟩ := h
    exact ⟨[], by simp, rfl, rfl, hasAt_nil _ _, by simp [itemsWire], fun h => h, by simp [itemsDepth]⟩
  | succ n ih =>
    intro it acc res c h
    simp only [deserializeItems] at h
    cases hd : dec it with
    | mk a r =>
      cases r with
      | error err =>
        rw [hd] at h
        simp only [Prod.mk.injEq, reduceCtorEq, and_false] at h
      | ok it2 =>
        rw [hd] at h
        simp only at h
        obtain ⟨g1, g2, g3, g4, g5⟩ := hdec it a it2 hd
        obtain ⟨xs, k1, k2, k3, k4, k5, k6, k7⟩ := ih it2 (acc ++ [a]) res c h
        refine ⟨a :: xs, by simp [k1], by simp [k2], by simp [itemsValid, g1, k3], ?_, ?_, ?_, ?_⟩
        · simp only [itemsWire]
          rw [hasAt_append]
          exact ⟨g2, g3 ▸ k4⟩
        · simp only [itemsWire, List.length_append]
          omega
        · intro _
          exact k6 g4
        · simp only [itemsDepth]
          omega

theorem VectorType.deserializeWith_sound {L : Limits} {buf : Buffer} {e fuel : Nat}
    {dec : Nat → Any × Except Err Nat} (hdec : DecSound L buf e fuel dec)
    (v0 : List Any) (b : Nat) (xs : List Any) (c : Nat)
    (h : VectorType.deserializeWith dec L buf v0 b e = (xs, .ok c)) :
    xs.length ≤ L.vectorMax ∧ itemsValid L xs = true ∧
      HasAt buf b (le64 3 ++ le64 xs.length ++ itemsWire xs) ∧
      c = b + 16 + (itemsWire xs).length ∧ c ≤ e ∧ itemsDepth xs ≤ fuel := by
  unfold VectorType.deserializeWith at h
  cases hsz : BaseType.deserializeSize .Vector buf b e with
  | error err =>
    rw [hsz] at h
    simp only [Prod.mk.injEq, reduceCtorEq, and_false] at h
  | ok r =>
    obtain ⟨size, it⟩ := r
    obtain ⟨h1, h2, h3, h4, h5⟩ := (BaseType.deserializeSize_ok_iff .Vector buf b e size it).1 hsz
    subst h2
    rw [hsz] at h
    simp only at h
    by_cases hm : L.vectorMax < size
    · simp only [hm, if_true, Prod.mk.injEq, reduceCtorEq, and_false] at h
    · simp only [hm, if_false] at h
      obtain ⟨ys, k1, k2, k3, k4, k5, k6, k7⟩ := deserializeItems_sound hdec size (b + 16) [] xs c h
      simp only [List.nil_append] at k1
      subst k1
      subst k2
      refine ⟨by omega, k3, ?_, k5, k6 h1, k7⟩
      rw [hasAt_append]
      refine ⟨h4, ?_⟩
      simpa [le64_length] using k4

theorem Any.deserializeFuel_sound (L : Limits) (buf : Buffer) (e : Nat) :
    ∀ (fuel : Nat) (d : Any), DecSound L buf e fuel (fun it => Any.deserializeFuel L buf fuel d it e) := by
  intro fuel
  induction fuel with
  | zero =>
    intro d it a c h
    simp only [Any.deserializeFuel, Prod.mk.injEq, reduceCtorEq, and_false] at h
  | succ fuel ih =>
    intro d it a c h
    simp only [Any.deserializeFuel] at h
    split at h
    · simp only [Prod.mk.injEq, reduceCtorEq, and_false] at h
    · split at h
      · simp only [Prod.mk.injEq, reduceCtorEq, and_false] at h
      · rename_i id _ _
        split at h
        · -- IntegerType
          split at h
          · simp only [Prod.mk.injEq, reduceCtorEq, and_false] at h
          · rename_i val c2 hr
            simp only [Prod.mk.injEq, Except.ok.injEq] at h
            obtain ⟨rfl, rfl⟩ := h
            obtain ⟨g1, g2, g3, g4⟩ :=
              (BaseType.deserializeArithmetic_ok_iff .Uint buf 0 it e val c2).1 hr
            refine ⟨by simpa [Any.valid] using g3, g4, ?_, by omega, by simp [Any.depth]⟩
            simp [Any.wire, le64_length, g2]
        · split at h
          · -- FloatType
            split at h
            · simp only [Prod.mk.injEq, reduceCtorEq, and_false] at h
            · rename_i val c2 hr
              simp only [Prod.mk.injEq, Except.ok.injEq] at h
              obtain ⟨rfl, rfl⟩ := h
              obtain ⟨g1, g2, g3, g4⟩ :=
                (BaseType.deserializeArithmetic_ok_iff .Float buf 0 it e val c2).1 hr
              refine ⟨by simpa [Any.valid] using g3, g4, ?_, by omega, by simp [Any.depth]⟩
              simp [Any.wire, le64_length, g2]
          · split at h
            · -- StringType
              split at h
              · simp only [Prod.mk.injEq, reduceCtorEq, and_false] at h
              · rename_i val c2 hr
                simp only [Prod.mk.injEq, Except.ok.injEq] at h
                obtain ⟨rfl, rfl⟩ := h
                obtain ⟨g1, g2, g3, g4⟩ := (StringType.deserialize_string_ok_iff L buf [] it e val c2).1 hr
                refine ⟨by simp [Any.valid, g1], g2, ?_, g4, by simp [Any.depth]⟩
                simp only [Any.wire, List.length_append, le64_length, g3]
                omega
            · split at h
              · -- VectorType
                split at h
                · simp only [Prod.mk.injEq, reduceCtorEq, and_false] at h
                · rename_i val c2 hr
                  simp only [Prod.mk.injEq, Except.ok.injEq] at h
                  obtain ⟨rfl, rfl⟩ := h
                  obtain ⟨g1, g2, g3, g4, g5, g6⟩ :=
                    VectorType.deserializeWith_sound (ih (.integer 0)) [] it val c2 hr
                  refine ⟨by simp [Any.valid, g1, g2], g3, ?_, g5, by simp [Any.depth, g6]⟩
                  simp only [Any.wire, List.length_append, le64_length, g4]
                  omega
              · simp only [Prod.mk.injEq, reduceCtorEq, and_false] at h

/-! ## Completeness of the decoders: the wire form of a value is decoded to the value -/

theorem deserializeItems_complete {buf : Buffer} {e : Nat} {dec : Nat → Any × Except Err Nat} :
    ∀ (xs : List Any) (it : Nat) (acc : List Any),
      (∀ x ∈ xs, ∀ it, HasAt buf it x.wire → it + x.wire.length ≤ e →
        dec it = (x, .ok (it + x.wire.length))) →
      HasAt buf it (itemsWire xs) → it + (itemsWire xs).length ≤ e →
      deserializeItems dec xs.length it acc = (acc ++ xs, .ok (it + (itemsWire xs).length)) := by
  intro xs
  induction xs with
  | nil =>
    intro it acc _ _ _
    simp [deserializeItems, itemsWire]
  | cons x xs ih =>
    intro it acc hdec hat hle
    simp only [itemsWire, hasAt_append, List.length_append] at hat hle
    simp only [List.length_cons, deserializeItems]
    rw [hdec x (List.mem_cons_self _ _) it hat.1 (by omega)]
    simp only
    rw [ih (it + x.wire.length) (acc ++ [x]) (fun y hy => hdec y (List.mem_cons_of_mem _ hy))
      hat.2 (by omega)]
    simp only [itemsWire, List.length_append, List.append_assoc, List.singleton_append,
      Prod.mk.injEq, Except.ok.injEq, true_and]
    omega

theorem Any.deserializeFuel_succ (L : Limits) (buf : Buffer) (fuel : Nat) (d : Any) (b e t : Nat)
    (hle : b + 8 ≤ e) (ht : t < 2 ^ 64) (hat : HasAt buf b (le64 t)) :
    Any.deserializeFuel L buf (fuel + 1) d b e =
      if t = 0 then
        match IntegerType.deserialize buf 0 b e with
        | (_, .error err) => (d, .error err)
        | (val, .ok it) => (.integer val, .ok it)
      else if t = 1 then
        match FloatType.deserialize buf 0 b e with
        | (_, .error err) => (d, .error err)
        | (val, .ok it) => (.float val, .ok it)
      else if t = 2 then
        match StringType.deserialize L buf [] b e with
        | (_, .error err) => (d, .error err)
        | (val, .ok it) => (.string val, .ok it)
      else if t = 3 then
        match VectorType.deserializeWith
            (fun it => Any.deserializeFuel L buf fuel (.integer 0) it e) L buf [] b e with
        | (_, .error err) => (d, .error err)
        | (val, .ok it) => (.vector val, .ok it)
      else (d, .error .unknownTypeId) := by
  have hd : ¬ distance b e < 8 := by unfold distance; omega
  have hr := (tools.deserialize_ok_iff buf b t (b + 8)).2 ⟨rfl, ht, hat⟩
  simp only [Any.deserializeFuel, hd, if_false, hr, TypeId.toId]

theorem VectorType.deserializeWith_complete {L : Limits} {buf : Buffer} {e : Nat}
    {dec : Nat → Any × Except Err Nat} (xs v0 : List Any) (b : Nat)
    (hdec : ∀ x ∈ xs, ∀ it, HasAt buf it x.wire → it + x.wire.length ≤ e →
        dec it = (x, .ok (it + x.wire.length)))
    (hlen : xs.length ≤ L.vectorMax)
    (hat : HasAt buf b (le64 3 ++ le64 xs.length ++ itemsWire xs))
    (hle : b + 16 + (itemsWire xs).length ≤ e) :
    VectorType.deserializeWith dec L buf v0 b e = (xs, .ok (b + 16 + (itemsWire xs).length)) := by
  have hL := L.vectorMax_lt
  have hge := itemsWire_length_ge xs
  rw [hasAt_append] at hat
  have hsz := (BaseType.deserializeSize_ok_iff .Vector buf b e xs.length (b + 16)).2
    ⟨by omega, rfl, by omega, hat.1, by rw [toPtrdiff_of_lt _ (by omega)]; omega⟩
  unfold VectorType.deserializeWith
  rw [hsz]
  have hm : ¬ L.vectorMax < xs.length := by omega
  simp only [hm, if_false]
  have h2 : HasAt buf (b + 16) (itemsWire xs) := by simpa [le64_length] using hat.2
  rw [deserializeItems_complete xs (b + 16) [] hdec h2 (by omega)]
  simp

theorem itemsValid_mem {L : Limits} {xs : List Any} (h : itemsValid L xs = true) :
    ∀ x ∈ xs, x.valid L = true := by
  induction xs with
  | nil => intro x hx; cases hx
  | cons a as ih =>
    simp only [itemsValid, Bool.and_eq_true] at h
    intro x hx
    rcases List.mem_cons.1 hx with rfl | hx
    · exact h.1
    · exact ih h.2 x hx

theorem itemsDepth_mem {xs : List Any} : ∀ x ∈ xs, x.depth ≤ itemsDepth xs := by
  induction xs with
  | nil => intro x hx; cases hx
  | cons a as ih =>
    intro x hx
    simp only [itemsDepth]
    rcases List.mem_cons.1 hx with rfl | hx
    · omega
    · have := ih x hx
      omega

theorem Any.deserializeFuel_complete (L : Limits) (buf : Buffer) (e : Nat) (v : Any) :
    v.valid L = true → ∀ (fuel : Nat) (d : Any) (b : Nat), v.depth ≤ fuel →
      HasAt buf b v.wire → b + v.wire.length ≤ e →
      Any.deserializeFuel L buf fuel d b e = (v, .ok (b + v.wire.length)) := by
  induction v using Any.induction with
  | hi n =>
    intro hv fuel d b hfuel hat hle
    simp only [Any.valid, decide_eq_true_eq] at hv
    simp only [Any.depth] at hfuel
    obtain ⟨f, rfl⟩ : ∃ f, fuel = f + 1 := ⟨fuel - 1, by omega⟩
    simp only [Any.wire, List.length_append, le64_length] at hat hle ⊢
    rw [Any.deserializeFuel_succ L buf f d b e 0 (by omega) (by norm_num)
      ((hasAt_append _ _ _ _).1 hat).1]
    simp only [if_true, IntegerType.deserialize]
    rw [(BaseType.deserializeArithmetic_ok_iff .Uint buf 0 b e n (b + 16)).2
      ⟨by omega, rfl, hv, hat⟩]
  | hf n =>
    intro hv fuel d b hfuel hat hle
    simp only [Any.valid, decide_eq_true_eq] at hv
    simp only [Any.depth] at hfuel
    obtain ⟨f, rfl⟩ : ∃ f, fuel = f + 1 := ⟨fuel - 1, by omega⟩
    simp only [Any.wire, List.length_append, le64_length] at hat hle ⊢
    rw [Any.deserializeFuel_succ L buf f d b e 1 (by omega) (by norm_num)
      ((hasAt_append _ _ _ _).1 hat).1]
    simp only [if_true, FloatType.deserialize, one_ne_zero, if_false]
    rw [(BaseType.deserializeArithmetic_ok_iff .Float buf 0 b e n (b + 16)).2
      ⟨by omega, rfl, hv, hat⟩]
  | hs str =>
    intro hv fuel d b hfuel hat hle
    simp only [Any.valid, decide_eq_true_eq] at hv
    simp only [Any.depth] at hfuel
    obtain ⟨f, rfl⟩ : ∃ f, fuel = f + 1 := ⟨fuel - 1, by omega⟩
    simp only [Any.wire, List.length_append, le64_length] at hat hle ⊢
    have hat2 := hat
    rw [hasAt_append, hasAt_append] at hat2
    rw [Any.deserializeFuel_succ L buf f d b e 2 (by omega) (by norm_num) hat2.1.1]
    simp only [if_true, OfNat.ofNat_ne_zero, OfNat.ofNat_ne_one, if_false]
    rw [(StringType.deserialize_string_ok_iff L buf [] b e str (b + 16 + str.length)).2
      ⟨hv, hat, rfl, by omega⟩]
    simp only [Prod.mk.injEq, Except.ok.injEq, true_and]
    omega
  | hv xs ih =>
    intro hv fuel d b hfuel hat hle
    simp only [Any.valid, Bool.and_eq_true, decide_eq_true_eq] at hv
    simp only [Any.depth] at hfuel
    obtain ⟨f, rfl⟩ : ∃ f, fuel = f + 1 := ⟨fuel - 1, by omega⟩
    simp only [Any.wire, List.length_append, le64_length] at hat hle ⊢
    have hat2 := hat
    rw [hasAt_append, hasAt_append] at hat2
    rw [Any.deserializeFuel_succ L buf f d b e 3 (by omega) (by norm_num) hat2.1.1]
    simp only [if_true, OfNat.ofNat_ne_zero, OfNat.ofNat_ne_one, if_false]
    have hdec : ∀ x ∈ xs, ∀ it, HasAt buf it x.wire → it + x.wire.length ≤ e →
        Any.deserializeFuel L buf f (.integer 0) it e = (x, .ok (it + x.wire.length)) := by
      intro x hx it h1 h2
      have := itemsDepth_mem x hx
      exact ih x hx (itemsValid_mem hv.2 x hx) f (.integer 0) it (by omega) h1 h2
    rw [VectorType.deserializeWith_complete xs [] b hdec hv.1 hat (by omega)]
    have h32 : ¬ (3 : Nat) = 2 := by decide
    simp only [h32, if_false, Prod.mk.injEq, Except.ok.injEq, true_and]
    omega

/-! ## The decoder at top level -/

theorem Any.deserialize_complete (L : Limits) (buf : Buffer) (v : Any) (hv : v.valid L = true)
    (d : Any) (b e : Nat) (hat : HasAt buf b v.wire) (hle : b + v.wire.length ≤ e) :
    Any.deserialize L buf d b e = (v, .ok (b + v.wire.length)) := by
  have := v.depth_le
  exact Any.deserializeFuel_complete L buf e v hv (fuelFor b e) d b
    (by unfold fuelFor; omega) hat hle

theorem Any.deserialize_sound (L : Limits) (buf : Buffer) (d : Any) (b e : Nat) (a : Any) (c : Nat)
    (h : Any.deserialize L buf d b e = (a, .ok c)) :
    a.valid L = true ∧ HasAt buf b a.wire ∧ c = b + a.wire.length ∧ c ≤ e :=
  have h1 := Any.deserializeFuel_sound L buf e (fuelFor b e) d b a c h
  ⟨h1.1, h1.2.1, h1.2.2.1, h1.2.2.2.1⟩

theorem Any.deserialize_decSound (L : Limits) (buf : Buffer) (e : Nat) (d : Any) :
    DecSound L buf e (e + 1) (fun it => Any.deserialize L buf d it e) := by
  intro it a c h
  have h1 := Any.deserializeFuel_sound L buf e (fuelFor it e) d it a c h
  refine ⟨h1.1, h1.2.1, h1.2.2.1, h1.2.2.2.1, ?_⟩
  have := h1.2.2.2.2
  unfold fuelFor at this
  omega

theorem hasAt_zero (buf bs : Buffer) : HasAt buf 0 bs ↔ bs <+: buf := by
  simp [HasAt]

theorem hasAt_append_left (pre bs post : Buffer) : HasAt (pre ++ bs ++ post) pre.length bs := by
  unfold HasAt
  rw [List.append_assoc, List.drop_left]
  exact List.prefix_append _ _

theorem HasAt.slice_eq {buf : Buffer} {b : Nat} {bs : Buffer} (h : HasAt buf b bs) :
    (buf.drop b).take (b + bs.length - b) = bs := by
  have := h.eq_take
  rw [Nat.add_sub_cancel_left]
  exact this.symm

theorem Serializator.deserialize_packet_complete (L : Limits) (S : List Any)
    (hS : Serializator.valid L S = true) (r : Buffer) :
    Serializator.deserialize L (Serializator.serialize S ++ r) = .ok S := by
  have hL := L.vectorMax_lt
  simp only [Serializator.valid, Bool.and_eq_true, decide_eq_true_eq] at hS
  rw [Serializator.serialize_eq_wire]
  have hat : HasAt (le64 S.length ++ itemsWire S ++ r) 0 (le64 S.length ++ itemsWire S) := by
    rw [hasAt_zero]
    exact List.prefix_append _ _
  rw [hasAt_append, le64_length] at hat
  unfold Serializator.deserialize
  rw [(tools.deserialize_ok_iff _ 0 S.length (0 + 8)).2 ⟨rfl, by omega, hat.1⟩]
  have hm : ¬ L.vectorMax < S.length := by omega
  simp only [hm, if_false]
  have hlen : 0 + 8 + (itemsWire S).length ≤ (le64 S.length ++ itemsWire S ++ r).length := by
    simp only [List.length_append, le64_length]
    omega
  rw [deserializeItems_complete S (0 + 8) []
    (fun x hx it h1 h2 => Any.deserialize_complete L _ x (itemsValid_mem hS.2 x hx) _ it _ h1 h2)
    hat.2 hlen]
  simp

theorem Serializator.deserialize_packet_sound (L : Limits) (b : Buffer) (res : List Any)
    (h : Serializator.deserialize L b = .ok res) :
    Serializator.valid L res = true ∧ Serializator.serialize res <+: b := by
  unfold Serializator.deserialize at h
  split at h
  · cases h
  · rename_i size it hr
    obtain ⟨h1, h2, h3⟩ := (tools.deserialize_ok_iff b 0 size it).1 hr
    subst h1
    split at h
    · cases h
    · rename_i hm
      split at h
      · cases h
      · rename_i res2 c hit
        simp only [Except.ok.injEq] at h
        subst h
        obtain ⟨xs, k1, k2, k3, k4, k5, _, _⟩ :=
          deserializeItems_sound (Any.deserialize_decSound L b b.length (.integer 0)) size (0 + 8) []
            res2 c hit
        simp only [List.nil_append] at k1
        subst k1
        subst k2
        refine ⟨by simp only [Serializator.valid, Bool.and_eq_true, decide_eq_true_eq]; exact ⟨by omega, k3⟩, ?_⟩
        rw [Serializator.serialize_eq_wire, ← hasAt_zero, hasAt_append, le64_length]
        exact ⟨h3, k4⟩

/-! ## Equality of values -/

theorem doubleEq_self (a : Nat) : doubleEq a a = !doubleIsNaN a := by
  unfold doubleEq
  cases doubleIsNaN a <;> simp

theorem eqItems_self_of (xs : List Any) (h : ∀ x ∈ xs, (x.eq x = true ↔ x.hasNaN = false)) :
    eqItems xs xs = true ↔ itemsHaveNaN xs = false := by
  induction xs with
  | nil => simp [eqItems, itemsHaveNaN]
  | cons x xs ih =>
    simp only [eqItems, itemsHaveNaN, Bool.and_eq_true, Bool.or_eq_false_iff]
    rw [h x (List.mem_cons_self _ _), ih (fun y hy => h y (List.mem_cons_of_mem _ hy))]

theorem Any.eq_self_iff (v : Any) : v.eq v = true ↔ v.hasNaN = false := by
  induction v using Any.induction with
  | hi n => simp [Any.eq, Any.hasNaN]
  | hf b => simp [Any.eq, Any.hasNaN, doubleEq_self]
  | hs s => simp [Any.eq, Any.hasNaN]
  | hv xs ih => simpa [Any.eq, Any.hasNaN] using eqItems_self_of xs ih

/-! ## Round trips -/

/-- C1 (amended): for every value `v` of the four kinds, nested to any depth, that satisfies
the invariant of the C++ types (64-bit numbers, sizes within `max_size()`), running
`Any::deserialize` over exactly the bytes appended by `Any::serialize(v)` succeeds, returns
the cursor at the end of those bytes and leaves the `Any` holding `v` itself, kind by kind
and bit for bit; the value held compares equal (`operator==`) to `v` exactly when no
`FloatType` inside `v` holds a NaN. -/
theorem Any.value_roundtrip (L : Limits) (v : Any) (hv : v.valid L = true) (buff : Buffer)
    (d : Any) :
    Any.deserialize L (v.serialize buff) d buff.length (v.serialize buff).length
        = (v, .ok (v.serialize buff).length) ∧
      ((Any.deserialize L (v.serialize buff) d buff.length (v.serialize buff).length).1.eq v = true
        ↔ v.hasNaN = false) := by
  have h : Any.deserialize L (v.serialize buff) d buff.length (v.serialize buff).length
      = (v, .ok (v.serialize buff).length) := by
    have hat : HasAt (v.serialize buff) buff.length v.wire := by
      rw [v.serialize_eq]
      simpa using hasAt_append_left buff v.wire []
    have hlen : (v.serialize buff).length = buff.length + v.wire.length := by
      rw [v.serialize_eq, List.length_append]
    rw [Any.deserialize_complete L _ v hv d buff.length _ hat (by omega), hlen]
  refine ⟨h, ?_⟩
  rw [h]
  exact v.eq_self_iff

/-- Witness of `Any.value_roundtrip`: the value of the header comment. -/
theorem Any.value_roundtrip_witness :
    exampleValue.valid Limits.libstdcxx = true ∧
      (Any.deserialize Limits.libstdcxx (exampleValue.serialize []) (.integer 0)
          ([] : Buffer).length (exampleValue.serialize []).length
        = (exampleValue, .ok (exampleValue.serialize []).length) ∧
      ((Any.deserialize Limits.libstdcxx (exampleValue.serialize []) (.integer 0)
          ([] : Buffer).length (exampleValue.serialize []).length).1.eq exampleValue = true
        ↔ exampleValue.hasNaN = false)) :=
  ⟨by decide, Any.value_roundtrip Limits.libstdcxx exampleValue (by decide) [] (.integer 0)⟩

/-- C1, counterexample: a `FloatType` holding a NaN is a value of the four kinds; decoding
its serialization succeeds with the cursor at the end, but the value held does not compare
equal (`operator==`) to the value that was serialized. -/
theorem Any.value_roundtrip_nan :
    (Any.float nanBits).valid Limits.libstdcxx = true ∧
      (Any.deserialize Limits.libstdcxx ((Any.float nanBits).serialize []) (.integer 0) 0
          ((Any.float nanBits).serialize []).length).2
        = .ok ((Any.float nanBits).serialize []).length ∧
      (Any.deserialize Limits.libstdcxx ((Any.float nanBits).serialize []) (.integer 0) 0
          ((Any.float nanBits).serialize []).length).1.eq (Any.float nanBits) = false := by
  refine ⟨by decide, by rfl, by rfl⟩

/-- C2 (amended): for every finite sequence `S` of `Any` values that satisfies the invariant
of the C++ types, pushing the elements of `S` in order into an empty `Serializator`,
calling `serialize()` and passing the result to `Serializator::deserialize` succeeds and
returns `S` itself: the same length, the i-th element the same as the i-th element of `S`,
kind by kind and bit for bit; an element compares equal (`operator==`) to its original
exactly when no `FloatType` inside it holds a NaN. -/
theorem Serializator.packet_roundtrip (L : Limits) (S : List Any)
    (hS : Serializator.valid L S = true) :
    Serializator.deserialize L (Serializator.serialize (Serializator.pushAll [] S)) = .ok S ∧
      ∀ x ∈ S, (x.eq x = true ↔ x.hasNaN = false) := by
  refine ⟨?_, fun x _ => x.eq_self_iff⟩
  rw [Serializator.pushAll_eq, List.nil_append]
  simpa using Serializator.deserialize_packet_complete L S hS []

/-- Witness of `Serializator.packet_roundtrip`: three values of three kinds. -/
theorem Serializator.packet_roundtrip_witness :
    Serializator.valid Limits.libstdcxx [exampleValue, .float 0, .integer 7] = true ∧
      (Serializator.deserialize Limits.libstdcxx
          (Serializator.serialize (Serializator.pushAll [] [exampleValue, .float 0, .integer 7]))
        = .ok [exampleValue, .float 0, .integer 7] ∧
      ∀ x ∈ [exampleValue, Any.float 0, Any.integer 7], (x.eq x = true ↔ x.hasNaN = false)) :=
  ⟨by decide, Serializator.packet_roundtrip Limits.libstdcxx _ (by decide)⟩

/-- C2, counterexample: for the sequence that consists of one `FloatType` holding a NaN the
packet is decoded to a sequence of length one, and its element does not compare equal
(`operator==`) to the element that was pushed. -/
theorem Serializator.packet_roundtrip_nan :
    Serializator.deserialize Limits.libstdcxx
        (Serializator.serialize (Serializator.pushAll [] [Any.float nanBits]))
      = .ok [Any.float nanBits] ∧
    (Any.float nanBits).eq (Any.float nanBits) = false ∧
    eqItems [Any.float nanBits] [Any.float nanBits] = false := by
  refine ⟨by rfl, by rfl, by rfl⟩

/-- C3 (amended): for every byte buffer `b` on which `Serializator::deserialize` succeeds,
pushing the returned values in order into a fresh `Serializator` and calling `serialize()`
yields a prefix of `b`: the bytes of `b` up to the end of the last counted value. It is
equal to `b` exactly when `b` has no byte behind that value. -/
theorem Serializator.serialize_deserialize (L : Limits) (b : Buffer) (res : List Any)
    (h : Serializator.deserialize L b = .ok res) :
    Serializator.serialize (Serializator.pushAll [] res) <+: b ∧
      (Serializator.serialize (Serializator.pushAll [] res) = b ↔
        (Serializator.serialize (Serializator.pushAll [] res)).length = b.length) := by
  rw [Serializator.pushAll_eq, List.nil_append]
  have hp := (Serializator.deserialize_packet_sound L b res h).2
  refine ⟨hp, fun h => by rw [h], fun h => ?_⟩
  exact List.IsPrefix.eq_of_length hp h

/-- Witness of `Serializator.serialize_deserialize`: the packet of the header comment. -/
theorem Serializator.serialize_deserialize_witness :
    Serializator.deserialize Limits.libstdcxx examplePacket = .ok [exampleValue] ∧
      (Serializator.serialize (Serializator.pushAll [] [exampleValue]) <+: examplePacket ∧
      (Serializator.serialize (Serializator.pushAll [] [exampleValue]) = examplePacket ↔
        (Serializator.serialize (Serializator.pushAll [] [exampleValue])).length
          = examplePacket.length)) :=
  ⟨by rfl, Serializator.serialize_deserialize Limits.libstdcxx examplePacket [exampleValue] (by rfl)⟩

/-- C3, counterexample: the nine zero bytes are decoded successfully (to the empty
sequence, the ninth byte is never looked at), and serializing the result gives eight
bytes, not the buffer that was decoded. -/
theorem Serializator.serialize_deserialize_trailing :
    Serializator.deserialize Limits.libstdcxx [0, 0, 0, 0, 0, 0, 0, 0, 0] = .ok [] ∧
      Serializator.serialize (Serializator.pushAll [] []) ≠ [0, 0, 0, 0, 0, 0, 0, 0, 0] := by
  refine ⟨by rfl, by decide⟩

/-! ## The example of the header comment and the empty packet -/

/-- C6 (amended): serializing the vector of `StringType("qwerty")` and `IntegerType(100500)`
appends exactly the 54 bytes `le64 3`, `le64 2`, `le64 2`, `le64 6`, `71 77 65 72 74 79`,
`le64 0`, `94 88 01 00 00 00 00 00`, and a `Serializator` into which only that vector was
pushed serializes to those bytes preceded by `le64 1`, which is exactly the 62-byte example
of the header comment. -/
theorem exampleValue_serialize (buff : Buffer) :
    exampleValue.serialize buff
        = buff ++ (le64 3 ++ le64 2 ++ le64 2 ++ le64 6 ++ [0x71, 0x77, 0x65, 0x72, 0x74, 0x79]
            ++ le64 0 ++ [0x94, 0x88, 0x01, 0x00, 0x00, 0x00, 0x00, 0x00]) ∧
      (le64 3 ++ le64 2 ++ le64 2 ++ le64 6 ++ [0x71, 0x77, 0x65, 0x72, 0x74, 0x79]
            ++ le64 0 ++ [0x94, 0x88, 0x01, 0x00, 0x00, 0x00, 0x00, 0x00]).length = 54 ∧
      Serializator.serialize (Serializator.push [] exampleValue)
        = le64 1 ++ (le64 3 ++ le64 2 ++ le64 2 ++ le64 6 ++ [0x71, 0x77, 0x65, 0x72, 0x74, 0x79]
            ++ le64 0 ++ [0x94, 0x88, 0x01, 0x00, 0x00, 0x00, 0x00, 0x00]) ∧
      Serializator.serialize (Serializator.push [] exampleValue) = examplePacket ∧
      examplePacket.length = 62 := by
  refine ⟨?_, by rfl, by rfl, by rfl, by rfl⟩
  rw [exampleValue.serialize_eq]
  rfl

/-- C6, counterexample: the serialization of the vector has 54 bytes, not 64, and the
packet of the `Serializator`, the example of the header comment, has 62 bytes, not 72. -/
theorem exampleValue_serialize_length :
    (exampleValue.serialize []).length ≠ 64 ∧
      (Serializator.serialize (Serializator.push [] exampleValue)).length ≠ 72 ∧
      examplePacket.length ≠ 72 := by
  refine ⟨by decide, by decide, by decide⟩

/-- C7 (amended): `Serializator::deserialize` applied to the 62-byte example packet of the
header comment (`le64 1`, `le64 3`, `le64 2`, `le64 2`, `le64 6`, "qwerty", `le64 0`,
`le64 100500`) succeeds and returns a sequence of exactly one value, a vector of exactly
two elements, the string "qwerty" first and the integer 100500 second; this on every
platform whose `max_size()` admit a string of 6 chars and a vector of 2 elements. -/
theorem examplePacket_deserialize (L : Limits) (h1 : 6 ≤ L.stringMax) (h2 : 2 ≤ L.vectorMax) :
    examplePacket = le64 1 ++ le64 3 ++ le64 2 ++ le64 2 ++ le64 6
        ++ [0x71, 0x77, 0x65, 0x72, 0x74, 0x79] ++ le64 0 ++ le64 100500 ∧
      examplePacket.length = 62 ∧
      Serializator.deserialize L examplePacket
        = .ok [.vector [.string [0x71, 0x77, 0x65, 0x72, 0x74, 0x79], .integer 100500]] := by
  refine ⟨by rfl, by rfl, ?_⟩
  have hS : Serializator.valid L [exampleValue] = true := by
    simp only [Serializator.valid, itemsValid, exampleValue, Any.valid, List.length_cons,
      List.length_nil, Bool.and_eq_true, decide_eq_true_eq, Bool.and_true]
    refine ⟨by omega, ⟨by omega, by omega, by norm_num⟩⟩
  have := Serializator.deserialize_packet_complete L [exampleValue] hS []
  rw [List.append_nil] at this
  exact this

/-- Witness of `examplePacket_deserialize`: the limits of libstdc++. -/
theorem examplePacket_deserialize_witness :
    6 ≤ Limits.libstdcxx.stringMax ∧ 2 ≤ Limits.libstdcxx.vectorMax ∧
      (examplePacket = le64 1 ++ le64 3 ++ le64 2 ++ le64 2 ++ le64 6
        ++ [0x71, 0x77, 0x65, 0x72, 0x74, 0x79] ++ le64 0 ++ le64 100500 ∧
      examplePacket.length = 62 ∧
      Serializator.deserialize Limits.libstdcxx examplePacket
        = .ok [.vector [.string [0x71, 0x77, 0x65, 0x72, 0x74, 0x79], .integer 100500]]) :=
  ⟨by decide, by decide, examplePacket_deserialize Limits.libstdcxx (by decide) (by decide)⟩

/-- C7, counterexample: the example packet of the header comment, which is the
concatenation of `le64 1`, `le64 3`, `le64 2`, `le64 2`, `le64 6`, "qwerty", `le64 0` and
`le64 100500`, has 62 bytes, not 72. -/
theorem examplePacket_length :
    (le64 1 ++ le64 3 ++ le64 2 ++ le64 2 ++ le64 6
        ++ [0x71, 0x77, 0x65, 0x72, 0x74, 0x79] ++ le64 0 ++ le64 100500).length ≠ 72 ∧
      examplePacket = le64 1 ++ le64 3 ++ le64 2 ++ le64 2 ++ le64 6
        ++ [0x71, 0x77, 0x65, 0x72, 0x74, 0x79] ++ le64 0 ++ le64 100500 := by
  refine ⟨by decide, by rfl⟩

/-- C8: a `Serializator` on which `push` was never called serializes to exactly the 8 bytes
`00 00 00 00 00 00 00 00`, and `Serializator::deserialize` of those 8 bytes succeeds and
returns the empty sequence. -/
theorem Serializator.empty_packet (L : Limits) :
    Serializator.serialize [] = [0x00, 0x00, 0x00, 0x00, 0x00, 0x00, 0x00, 0x00] ∧
      Serializator.deserialize L [0x00, 0x00, 0x00, 0x00, 0x00, 0x00, 0x00, 0x00] = .ok [] := by
  refine ⟨by rfl, ?_⟩
  have hS : Serializator.valid L [] = true := by simp [Serializator.valid, itemsValid]
  have := Serializator.deserialize_packet_complete L [] hS []
  rw [List.append_nil] at this
  exact this

/-! ## The cursor -/

/-- C9: whenever `Any::deserialize` succeeds on a range `[begin, end)` of a buffer with the
returned cursor `c`, the cursor lies in `(begin, end]`, serializing the decoded `Any`
produces exactly the bytes of `[begin, c)`, and no byte outside `[begin, c)` influenced
the result: the call gives the same result on every buffer that has the same bytes
there. -/
theorem Any.deserialize_cursor (L : Limits) (buf : Buffer) (d : Any) (begin end_ : Nat) (a : Any)
    (c : Nat) (h : Any.deserialize L buf d begin end_ = (a, .ok c)) :
    begin < c ∧ c ≤ end_ ∧ a.serialize [] = (buf.drop begin).take (c - begin) ∧
      ∀ buf' : Buffer, (buf'.drop begin).take (c - begin) = (buf.drop begin).take (c - begin) →
        Any.deserialize L buf' d begin end_ = (a, .ok c) := by
  obtain ⟨h1, h2, h3, h4⟩ := Any.deserialize_sound L buf d begin end_ a c h
  have hge := a.wire_length_ge
  have hs : (buf.drop begin).take (c - begin) = a.wire := by
    rw [h3]
    exact h2.slice_eq
  refine ⟨by omega, h4, ?_, ?_⟩
  · rw [a.serialize_eq, hs, List.nil_append]
  · intro buf' hb
    rw [hs] at hb
    have hat : HasAt buf' begin a.wire := by
      unfold HasAt
      rw [← hb]
      exact List.take_prefix _ _
    rw [Any.deserialize_complete L buf' a h1 d begin end_ hat (by omega), h3]

/-- Witness of `Any.deserialize_cursor`: the value inside the packet of the header
comment. -/
theorem Any.deserialize_cursor_witness :
    Any.deserialize Limits.libstdcxx examplePacket (.integer 0) 8 62 = (exampleValue, .ok 62) ∧
      (8 < 62 ∧ 62 ≤ 62 ∧ exampleValue.serialize [] = (examplePacket.drop 8).take (62 - 8) ∧
      ∀ buf' : Buffer, (buf'.drop 8).take (62 - 8) = (examplePacket.drop 8).take (62 - 8) →
        Any.deserialize Limits.libstdcxx buf' (.integer 0) 8 62 = (exampleValue, .ok 62)) :=
  ⟨by rfl, Any.deserialize_cursor Limits.libstdcxx examplePacket (.integer 0) 8 62 exampleValue 62
    (by rfl)⟩

/-! ## Overwritten tag fields -/

theorem overwrite_zero (w bs : Buffer) : overwrite w 0 bs = bs ++ w.drop bs.length := by
  simp [overwrite]

theorem overwrite_append_left (a r bs : Buffer) (off : Nat) (h : off + bs.length ≤ a.length) :
    overwrite (a ++ r) off bs = overwrite a off bs ++ r := by
  unfold overwrite
  rw [List.take_append_of_le_length (by omega), List.drop_append_of_le_length (by omega)]
  simp

theorem overwrite_append_right (a r bs : Buffer) (off : Nat) (h : a.length ≤ off) :
    overwrite (a ++ r) off bs = a ++ overwrite r (off - a.length) bs := by
  unfold overwrite
  obtain ⟨k, rfl⟩ : ∃ k, off = a.length + k := ⟨off - a.length, by omega⟩
  rw [List.take_append, Nat.add_assoc, List.drop_append]
  simp

theorem itemsTagOffsets_range_of (xs : List Any)
    (h : ∀ x ∈ xs, ∀ b off, off ∈ x.tagOffsets b → b ≤ off ∧ off + 16 ≤ b + x.wire.length) :
    ∀ b off, off ∈ itemsTagOffsets xs b → b ≤ off ∧ off + 16 ≤ b + (itemsWire xs).length := by
  induction xs with
  | nil => intro b off hoff; simp [itemsTagOffsets] at hoff
  | cons x xs ih =>
    intro b off hoff
    simp only [itemsTagOffsets, List.mem_append] at hoff
    simp only [itemsWire, List.length_append]
    rcases hoff with hoff | hoff
    · have := h x (List.mem_cons_self _ _) b off hoff
      omega
    · have := ih (fun y hy => h y (List.mem_cons_of_mem _ hy)) _ off hoff
      omega

theorem Any.tagOffsets_range (v : Any) :
    ∀ b off, off ∈ v.tagOffsets b → b ≤ off ∧ off + 16 ≤ b + v.wire.length := by
  induction v using Any.induction with
  | hi n =>
    intro b off hoff
    simp only [Any.tagOffsets, List.mem_singleton] at hoff
    simp only [Any.wire, List.length_append, le64_length]
    omega
  | hf n =>
    intro b off hoff
    simp only [Any.tagOffsets, List.mem_singleton] at hoff
    simp only [Any.wire, List.length_append, le64_length]
    omega
  | hs str =>
    intro b off hoff
    simp only [Any.tagOffsets, List.mem_singleton] at hoff
    simp only [Any.wire, List.length_append, le64_length]
    omega
  | hv xs ih =>
    intro b off hoff
    simp only [Any.tagOffsets, List.mem_cons] at hoff
    simp only [Any.wire, List.length_append, le64_length]
    rcases hoff with hoff | hoff
    · omega
    · have := itemsTagOffsets_range_of xs ih _ off hoff
      omega

theorem Any.deserializeFuel_unknown (L : Limits) (buf : Buffer) (fuel : Nat) (d : Any) (b e t : Nat)
    (hle : b + 8 ≤ e) (h3 : 3 < t) (ht : t < 2 ^ 64) (hat : HasAt buf b (le64 t)) :
    Any.deserializeFuel L buf (fuel + 1) d b e = (d, .error .unknownTypeId) := by
  rw [Any.deserializeFuel_succ L buf fuel d b e t hle ht hat]
  have h0 : ¬ t = 0 := by omega
  have h1 : ¬ t = 1 := by omega
  have h2 : ¬ t = 2 := by omega
  have h3 : ¬ t = 3 := by omega
  simp only [h0, h1, h2, h3, if_false]

theorem deserializeItems_overwritten {buf : Buffer} {e : Nat} {dec : Nat → Any × Except Err Nat}
    (off : Nat) (bs : Buffer) (hbs : bs.length = 8) :
    ∀ (xs : List Any) (it : Nat) (acc : List Any),
      (∀ x ∈ xs, ∀ it, HasAt buf it x.wire → it + x.wire.length ≤ e →
        dec it = (x, .ok (it + x.wire.length))) →
      (∀ x ∈ xs, ∀ it, off ∈ x.tagOffsets it → HasAt buf it (overwrite x.wire (off - it) bs) →
        it + x.wire.length ≤ e → ∃ st, dec it = (st, .error .unknownTypeId)) →
      off ∈ itemsTagOffsets xs it → HasAt buf it (overwrite (itemsWire xs) (off - it) bs) →
      it + (itemsWire xs).length ≤ e →
      ∃ st, deserializeItems dec xs.length it acc = (st, .error .unknownTypeId) := by
  intro xs
  induction xs with
  | nil => intro it acc _ _ hoff; simp [itemsTagOffsets] at hoff
  | cons x xs ih =>
    intro it acc hok hbad hoff hat hle
    simp only [itemsTagOffsets, List.mem_append] at hoff
    simp only [itemsWire, List.length_append] at hat hle
    simp only [List.length_cons, deserializeItems]
    rcases hoff with hoff | hoff
    · have hr := x.tagOffsets_range it off hoff
      rw [overwrite_append_left _ _ _ _ (by omega), hasAt_append] at hat
      obtain ⟨st, hst⟩ := hbad x (List.mem_cons_self _ _) it hoff hat.1 (by omega)
      rw [hst]
      exact ⟨acc, rfl⟩
    · have hr := itemsTagOffsets_range_of xs (fun y _ => y.tagOffsets_range) _ off hoff
      rw [overwrite_append_right _ _ _ _ (by omega), hasAt_append] at hat
      rw [hok x (List.mem_cons_self _ _) it hat.1 (by omega)]
      simp only
      have hsub : off - it - x.wire.length = off - (it + x.wire.length) := by omega
      rw [hsub] at hat
      exact ih (it + x.wire.length) (acc ++ [x])
        (fun y hy => hok y (List.mem_cons_of_mem _ hy))
        (fun y hy => hbad y (List.mem_cons_of_mem _ hy)) hoff hat.2 (by omega)

theorem Any.deserializeFuel_overwritten (L : Limits) (buf : Buffer) (e t : Nat) (h3 : 3 < t)
    (ht : t < 2 ^ 64) (v : Any) :
    v.valid L = true → ∀ (fuel : Nat) (d : Any) (b off : Nat), v.depth ≤ fuel →
      off ∈ v.tagOffsets b → HasAt buf b (overwrite v.wire (off - b) (le64 t)) →
      b + v.wire.length ≤ e →
      Any.deserializeFuel L buf fuel d b e = (d, .error .unknownTypeId) := by
  induction v using Any.induction with
  | hi n =>
    intro _ fuel d b off hfuel hoff hat hle
    simp only [Any.depth] at hfuel
    obtain ⟨f, rfl⟩ : ∃ f, fuel = f + 1 := ⟨fuel - 1, by omega⟩
    simp only [Any.tagOffsets, List.mem_singleton] at hoff
    subst hoff
    simp only [Any.wire, List.length_append, le64_length] at hle
    rw [Nat.sub_self, overwrite_zero, hasAt_append] at hat
    exact Any.deserializeFuel_unknown L buf f d off e t (by omega) h3 ht hat.1
  | hf n =>
    intro _ fuel d b off hfuel hoff hat hle
    simp only [Any.depth] at hfuel
    obtain ⟨f, rfl⟩ : ∃ f, fuel = f + 1 := ⟨fuel - 1, by omega⟩
    simp only [Any.tagOffsets, List.mem_singleton] at hoff
    subst hoff
    simp only [Any.wire, List.length_append, le64_length] at hle
    rw [Nat.sub_self, overwrite_zero, hasAt_append] at hat
    exact Any.deserializeFuel_unknown L buf f d off e t (by omega) h3 ht hat.1
  | hs str =>
    intro _ fuel d b off hfuel hoff hat hle
    simp only [Any.depth] at hfuel
    obtain ⟨f, rfl⟩ : ∃ f, fuel = f + 1 := ⟨fuel - 1, by omega⟩
    simp only [Any.tagOffsets, List.mem_singleton] at hoff
    subst hoff
    simp only [Any.wire, List.length_append, le64_length] at hle
    rw [Nat.sub_self, overwrite_zero, hasAt_append] at hat
    exact Any.deserializeFuel_unknown L buf f d off e t (by omega) h3 ht hat.1
  | hv xs ih =>
    intro hv fuel d b off hfuel hoff hat hle
    simp only [Any.valid, Bool.and_eq_true, decide_eq_true_eq] at hv
    simp only [Any.depth] at hfuel
    obtain ⟨f, rfl⟩ : ∃ f, fuel = f + 1 := ⟨fuel - 1, by omega⟩
    simp only [Any.tagOffsets, List.mem_cons] at hoff
    simp only [Any.wire, List.length_append, le64_length] at hle
    rcases hoff with hoff | hoff
    · subst hoff
      rw [Nat.sub_self, overwrite_zero, hasAt_append] at hat
      exact Any.deserializeFuel_unknown L buf f d off e t (by omega) h3 ht hat.1
    · have hr := itemsTagOffsets_range_of xs (fun y _ => y.tagOffsets_range) _ off hoff
      have hL := L.vectorMax_lt
      have hge := itemsWire_length_ge xs
      simp only [Any.wire] at hat
      rw [overwrite_append_right _ _ _ _ (by simp [le64_length]; omega), hasAt_append,
        hasAt_append] at hat
      simp only [List.length_append, le64_length] at hat
      have hsub : off - b - (8 + 8) = off - (b + 16) := by omega
      rw [hsub] at hat
      rw [Any.deserializeFuel_succ L buf f d b e 3 (by omega) (by norm_num) hat.1.1]
      have hsz := (BaseType.deserializeSize_ok_iff .Vector buf b e xs.length (b + 16)).2
        ⟨by omega, rfl, by omega, (hasAt_append _ _ _ _).2 hat.1,
          by rw [toPtrdiff_of_lt _ (by omega)]; omega⟩
      have hm : ¬ L.vectorMax < xs.length := by omega
      have hok : ∀ x ∈ xs, ∀ it, HasAt buf it x.wire → it + x.wire.length ≤ e →
          Any.deserializeFuel L buf f (.integer 0) it e = (x, .ok (it + x.wire.length)) := by
        intro x hx it h1 h2
        have := itemsDepth_mem x hx
        exact Any.deserializeFuel_complete L buf e x (itemsValid_mem hv.2 x hx) f (.integer 0) it
          (by omega) h1 h2
      have hbad : ∀ x ∈ xs, ∀ it, off ∈ x.tagOffsets it →
          HasAt buf it (overwrite x.wire (off - it) (le64 t)) → it + x.wire.length ≤ e →
          ∃ st, Any.deserializeFuel L buf f (.integer 0) it e = (st, .error .unknownTypeId) := by
        intro x hx it h1 h2 h4
        have := itemsDepth_mem x hx
        exact ⟨_, ih x hx (itemsValid_mem hv.2 x hx) f (.integer 0) it off (by omega) h1 h2 h4⟩
      obtain ⟨st, hst⟩ := deserializeItems_overwritten off (le64 t) (le64_length t) xs (b + 16) []
        hok hbad hoff (by simpa [Nat.add_assoc] using hat.2) (by omega)
      have h30 : ¬ (3 : Nat) = 0 := by decide
      have h31 : ¬ (3 : Nat) = 1 := by decide
      have h32 : ¬ (3 : Nat) = 2 := by decide
      simp only [h30, h31, h32, if_false, if_true, VectorType.deserializeWith, hsz, hm, hst]

theorem overwrite_length (w bs : Buffer) (off : Nat) (h : off + bs.length ≤ w.length) :
    (overwrite w off bs).length = w.length := by
  simp only [overwrite, List.length_append, List.length_take, List.length_drop]
  omega

/-- C5: for every packet returned by `Serializator::serialize` (of values that satisfy the
invariant of the C++ types) and every value inside it, at top level or nested in vectors,
overwriting the 8-byte tag field of that value with the little-endian encoding of a number
`t` outside `{0, 1, 2, 3}` makes `Serializator::deserialize` fail with the error
"Unknown type ID"; and `Any::deserialize` fails with that error, leaving the object as it
was, on every range of at least 8 bytes whose first 8 bytes decode to such a `t`. -/
theorem Serializator.deserialize_unknown_tag (L : Limits) (S : List Any)
    (hS : Serializator.valid L S = true) (off : Nat) (hoff : off ∈ itemsTagOffsets S 8) (t : Nat)
    (h3 : 3 < t) (ht : t < 2 ^ 64) :
    Serializator.deserialize L (overwrite (Serializator.serialize S) off (le64 t))
        = .error .unknownTypeId ∧
      ∀ (buf : Buffer) (d : Any) (begin end_ c : Nat), begin + 8 ≤ end_ →
        tools.deserialize buf begin = .ok (t, c) →
        Any.deserialize L buf d begin end_ = (d, .error .unknownTypeId) := by
  constructor
  · have hL := L.vectorMax_lt
    simp only [Serializator.valid, Bool.and_eq_true, decide_eq_true_eq] at hS
    have hr := itemsTagOffsets_range_of S (fun y _ => y.tagOffsets_range) 8 off hoff
    rw [Serializator.serialize_eq_wire,
      overwrite_append_right _ _ _ _ (by rw [le64_length]; omega), le64_length]
    have hlen : (overwrite (itemsWire S) (off - 8) (le64 t)).length = (itemsWire S).length :=
      overwrite_length _ _ _ (by rw [le64_length]; omega)
    obtain ⟨buf, hbuf⟩ : ∃ buf, buf = le64 S.length ++ overwrite (itemsWire S) (off - 8) (le64 t) :=
      ⟨_, rfl⟩
    rw [← hbuf]
    have hblen : buf.length = 8 + (itemsWire S).length := by
      rw [hbuf, List.length_append, le64_length, hlen]
    have hat : HasAt buf 0 (le64 S.length ++ overwrite (itemsWire S) (off - 8) (le64 t)) := by
      rw [hasAt_zero, hbuf]
    rw [hasAt_append, le64_length] at hat
    unfold Serializator.deserialize
    rw [(tools.deserialize_ok_iff _ 0 S.length (0 + 8)).2 ⟨rfl, by omega, hat.1⟩]
    have hm : ¬ L.vectorMax < S.length := by omega
    simp only [hm, if_false]
    obtain ⟨st, hst⟩ := @deserializeItems_overwritten buf buf.length
      (fun it => Any.deserialize L buf (.integer 0) it buf.length) off (le64 t) (le64_length t) S
      (0 + 8) []
      (fun x hx it h1 h2 => Any.deserialize_complete L _ x (itemsValid_mem hS.2 x hx) _ it _ h1 h2)
      (fun x hx it h1 h2 h4 => ⟨_, Any.deserializeFuel_overwritten L _ _ t h3 ht x
        (itemsValid_mem hS.2 x hx) _ (.integer 0) it off
        (by have := x.depth_le; unfold fuelFor; omega) h1 h2 h4⟩)
      (by simpa using hoff) (by simpa using hat.2) (by omega)
    rw [hst]
  · intro buf d begin end_ c hle hr
    obtain ⟨_, _, hat⟩ := (tools.deserialize_ok_iff buf begin t c).1 hr
    exact Any.deserializeFuel_unknown L buf (end_ - begin) d begin end_ t hle h3 ht hat

/-- Witness of `Serializator.deserialize_unknown_tag`: the tag of the string nested in the
vector of the header comment, at index 24 of the packet, overwritten with 7. -/
theorem Serializator.deserialize_unknown_tag_witness :
    Serializator.valid Limits.libstdcxx [exampleValue] = true ∧
      24 ∈ itemsTagOffsets [exampleValue] 8 ∧ 3 < 7 ∧ 7 < 2 ^ 64 ∧
      (Serializator.deserialize Limits.libstdcxx
          (overwrite (Serializator.serialize [exampleValue]) 24 (le64 7))
        = .error .unknownTypeId ∧
      ∀ (buf : Buffer) (d : Any) (begin end_ c : Nat), begin + 8 ≤ end_ →
        tools.deserialize buf begin = .ok (7, c) →
        Any.deserialize Limits.libstdcxx buf d begin end_ = (d, .error .unknownTypeId)) :=
  ⟨by decide, by decide, by decide, by decide,
    Serializator.deserialize_unknown_tag Limits.libstdcxx [exampleValue] (by decide) 24 (by decide) 7
      (by decide) (by decide)⟩

/-! ## Truncated packets -/

theorem TruncAt.length_eq {buf : Buffer} {b : Nat} {w : Buffer} {k : Nat} (h : TruncAt buf b w k) :
    buf.length - b = k := by
  have := congrArg List.length h.2
  rw [List.length_drop, List.length_take] at this
  have := h.1
  omega

theorem TruncAt.split {buf : Buffer} {b : Nat} {a r : Buffer} {k : Nat}
    (h : TruncAt buf b (a ++ r) k) (hk : a.length ≤ k) :
    HasAt buf b a ∧ TruncAt buf (b + a.length) r (k - a.length) := by
  obtain ⟨h1, h2⟩ := h
  rw [List.take_append_eq_append_take, List.take_of_length_le hk] at h2
  rw [List.length_append] at h1
  refine ⟨?_, by omega, ?_⟩
  · unfold HasAt
    rw [h2]
    exact List.prefix_append _ _
  · rw [← List.drop_drop, h2, List.drop_left]

theorem TruncAt.left {buf : Buffer} {b : Nat} {a r : Buffer} {k : Nat}
    (h : TruncAt buf b (a ++ r) k) (hk : k < a.length) : TruncAt buf b a k := by
  obtain ⟨_, h2⟩ := h
  rw [List.take_append_of_le_length (by omega)] at h2
  exact ⟨hk, h2⟩

theorem BaseType.deserializeSize_eval (T : TypeId) (buf : Buffer) (b e size : Nat)
    (hle : b + 16 ≤ e) (hsz : size < 2 ^ 64) (hat : HasAt buf b (le64 T.toId ++ le64 size)) :
    BaseType.deserializeSize T buf b e =
      if distance (b + 16) e < toPtrdiff size then .error .tooSmallForData
      else .ok (size, b + 16) := by
  rw [hasAt_append, le64_length] at hat
  have hid := (BaseType.deserializeId_ok_iff T buf b e (b + 8)).2 ⟨by omega, rfl, hat.1⟩
  have hr := (tools.deserialize_ok_iff buf (b + 8) size (b + 8 + 8)).2 ⟨rfl, hsz, hat.2⟩
  have hd : ¬ distance (b + 8) e < 8 := by unfold distance; omega
  simp only [BaseType.deserializeSize, hid, hd, if_false, hr]

theorem BaseType.deserializeSize_short (T : TypeId) (buf : Buffer) (b e : Nat)
    (hle : b + 8 ≤ e) (hlt : e < b + 16) (hat : HasAt buf b (le64 T.toId)) :
    BaseType.deserializeSize T buf b e = .error .tooSmallForSize := by
  have hid := (BaseType.deserializeId_ok_iff T buf b e (b + 8)).2 ⟨hle, rfl, hat⟩
  have hd : distance (b + 8) e < 8 := by unfold distance; omega
  simp only [BaseType.deserializeSize, hid, hd, if_true]

theorem BaseType.deserializeArithmetic_short (T : TypeId) (buf : Buffer) (v0 b e : Nat)
    (hle : b + 8 ≤ e) (hlt : e < b + 16) (hat : HasAt buf b (le64 T.toId)) :
    BaseType.deserializeArithmetic T buf v0 b e = (v0, .error .tooSmallForValue) := by
  have hid := (BaseType.deserializeId_ok_iff T buf b e (b + 8)).2 ⟨hle, rfl, hat⟩
  have hd : distance (b + 8) e < 8 := by unfold distance; omega
  simp only [BaseType.deserializeArithmetic, hid, hd, if_true]

theorem deserializeItems_truncated {buf : Buffer} {dec : Nat → Any × Except Err Nat} :
    ∀ (xs : List Any) (it : Nat) (acc : List Any) (k : Nat),
      (∀ x ∈ xs, ∀ it2, it ≤ it2 → HasAt buf it2 x.wire → it2 + x.wire.length ≤ buf.length →
        dec it2 = (x, .ok (it2 + x.wire.length))) →
      (∀ x ∈ xs, ∀ it2 k, it ≤ it2 → TruncAt buf it2 x.wire k →
        ∃ st err, dec it2 = (st, .error err) ∧ err.isUnderrun = true) →
      TruncAt buf it (itemsWire xs) k →
      ∃ st err, deserializeItems dec xs.length it acc = (st, .error err) ∧
        err.isUnderrun = true := by
  intro xs
  induction xs with
  | nil =>
    intro it acc k _ _ h
    have := h.1
    simp [itemsWire] at this
  | cons x xs ih =>
    intro it acc k hok hbad h
    simp only [itemsWire] at h
    simp only [List.length_cons, deserializeItems]
    by_cases hk : k < x.wire.length
    · obtain ⟨st, err, h1, h2⟩ := hbad x (List.mem_cons_self _ _) it k (Nat.le_refl _) (h.left hk)
      rw [h1]
      exact ⟨acc, err, rfl, h2⟩
    · have hlen := h.length_eq
      have hge := x.wire_length_ge
      obtain ⟨g1, g2⟩ := h.split (by omega)
      rw [hok x (List.mem_cons_self _ _) it (Nat.le_refl _) g1 (by omega)]
      exact ih (it + x.wire.length) (acc ++ [x]) (k - x.wire.length)
        (fun y hy it2 hit => hok y (List.mem_cons_of_mem _ hy) it2 (by omega))
        (fun y hy it2 k2 hit => hbad y (List.mem_cons_of_mem _ hy) it2 k2 (by omega)) g2

theorem Any.deserializeFuel_truncated (L : Limits) (buf : Buffer) (v : Any) :
    v.valid L = true → ∀ (fuel : Nat) (d : Any) (b k : Nat), k / 16 < fuel →
      TruncAt buf b v.wire k →
      ∃ err, Any.deserializeFuel L buf fuel d b buf.length = (d, .error err) ∧
        err.isUnderrun = true := by
  have hshort : ∀ (f : Nat) (d : Any) (b k : Nat) (w : Buffer), TruncAt buf b w k → k < 8 →
      ∃ err, Any.deserializeFuel L buf (f + 1) d b buf.length = (d, .error err) ∧
        err.isUnderrun = true := by
    intro f d b k w h hk
    have hlen := h.length_eq
    have hd : distance b buf.length < 8 := by unfold distance; omega
    exact ⟨.invalidBufferSize, by simp only [Any.deserializeFuel, hd, if_true], rfl⟩
  induction v using Any.induction with
  | hi n =>
    intro _ fuel d b k hfuel h
    obtain ⟨f, rfl⟩ : ∃ f, fuel = f + 1 := ⟨fuel - 1, by omega⟩
    by_cases hk : k < 8
    · exact hshort f d b k _ h hk
    · have hlen := h.length_eq
      have hk2 := h.1
      simp only [Any.wire, List.length_append, le64_length] at hk2
      simp only [Any.wire] at h
      obtain ⟨g1, _⟩ := h.split (by rw [le64_length]; omega)
      rw [Any.deserializeFuel_succ L buf f d b buf.length 0 (by omega) (by norm_num) g1]
      simp only [if_true, IntegerType.deserialize,
        BaseType.deserializeArithmetic_short .Uint buf 0 b buf.length (by omega) (by omega) g1]
      exact ⟨_, rfl, rfl⟩
  | hf n =>
    intro _ fuel d b k hfuel h
    obtain ⟨f, rfl⟩ : ∃ f, fuel = f + 1 := ⟨fuel - 1, by omega⟩
    by_cases hk : k < 8
    · exact hshort f d b k _ h hk
    · have hlen := h.length_eq
      have hk2 := h.1
      simp only [Any.wire, List.length_append, le64_length] at hk2
      simp only [Any.wire] at h
      obtain ⟨g1, _⟩ := h.split (by rw [le64_length]; omega)
      rw [Any.deserializeFuel_succ L buf f d b buf.length 1 (by omega) (by norm_num) g1]
      simp only [if_true, one_ne_zero, if_false, FloatType.deserialize,
        BaseType.deserializeArithmetic_short .Float buf 0 b buf.length (by omega) (by omega) g1]
      exact ⟨_, rfl, rfl⟩
  | hs str =>
    intro hv fuel d b k hfuel h
    have hL := L.stringMax_lt
    simp only [Any.valid, decide_eq_true_eq] at hv
    obtain ⟨f, rfl⟩ : ∃ f, fuel = f + 1 := ⟨fuel - 1, by omega⟩
    by_cases hk : k < 8
    · exact hshort f d b k _ h hk
    · have hlen := h.length_eq
      have hk2 := h.1
      simp only [Any.wire, List.length_append, le64_length] at hk2
      simp only [Any.wire, List.append_assoc] at h
      obtain ⟨g1, g2⟩ := h.split (by rw [le64_length]; omega)
      rw [le64_length] at g2
      rw [Any.deserializeFuel_succ L buf f d b buf.length 2 (by omega) (by norm_num) g1]
      simp only [if_true, OfNat.ofNat_ne_zero, OfNat.ofNat_ne_one, if_false, StringType.deserialize]
      by_cases hk16 : k < 16
      · rw [BaseType.deserializeSize_short .String buf b buf.length (by omega) (by omega) g1]
        exact ⟨_, rfl, rfl⟩
      · obtain ⟨g3, g4⟩ := g2.split (by rw [le64_length]; omega)
        have hd : distance (b + 16) buf.length < toPtrdiff str.length := by
          rw [toPtrdiff_of_lt _ (by omega)]
          unfold distance
          omega
        rw [BaseType.deserializeSize_eval .String buf b buf.length str.length (by omega) (by omega)
          ((hasAt_append _ _ _ _).2 ⟨g1, by simpa [le64_length] using g3⟩)]
        simp only [hd, if_true]
        exact ⟨_, rfl, rfl⟩
  | hv xs ih =>
    intro hv fuel d b k hfuel h
    have hL := L.vectorMax_lt
    simp only [Any.valid, Bool.and_eq_true, decide_eq_true_eq] at hv
    obtain ⟨f, rfl⟩ : ∃ f, fuel = f + 1 := ⟨fuel - 1, by omega⟩
    by_cases hk : k < 8
    · exact hshort f d b k _ h hk
    · have hlen := h.length_eq
      have hk2 := h.1
      simp only [Any.wire, List.length_append, le64_length] at hk2
      simp only [Any.wire, List.append_assoc] at h
      obtain ⟨g1, g2⟩ := h.split (by rw [le64_length]; omega)
      rw [le64_length] at g2
      rw [Any.deserializeFuel_succ L buf f d b buf.length 3 (by omega) (by norm_num) g1]
      have h30 : ¬ (3 : Nat) = 0 := by decide
      have h31 : ¬ (3 : Nat) = 1 := by decide
      have h32 : ¬ (3 : Nat) = 2 := by decide
      simp only [h30, h31, h32, if_true, if_false, VectorType.deserializeWith]
      by_cases hk16 : k < 16
      · rw [BaseType.deserializeSize_short .Vector buf b buf.length (by omega) (by omega) g1]
        exact ⟨_, rfl, rfl⟩
      · obtain ⟨g3, g4⟩ := g2.split (by rw [le64_length]; omega)
        rw [le64_length] at g4
        rw [BaseType.deserializeSize_eval .Vector buf b buf.length xs.length (by omega) (by omega)
          ((hasAt_append _ _ _ _).2 ⟨g1, by simpa [le64_length] using g3⟩)]
        by_cases hd : distance (b + 16) buf.length < toPtrdiff xs.length
        · simp only [hd, if_true]
          exact ⟨_, rfl, rfl⟩
        · have hm : ¬ L.vectorMax < xs.length := by omega
          simp only [hd, if_false, hm]
          have hok : ∀ x ∈ xs, ∀ it, b + 16 ≤ it → HasAt buf it x.wire →
              it + x.wire.length ≤ buf.length →
              Any.deserializeFuel L buf f (.integer 0) it buf.length
                = (x, .ok (it + x.wire.length)) := by
            intro x hx it hit h1 h2
            have := x.depth_le
            exact Any.deserializeFuel_complete L buf buf.length x (itemsValid_mem hv.2 x hx) f
              (.integer 0) it (by omega) h1 h2
          have hbad : ∀ x ∈ xs, ∀ it k2, b + 16 ≤ it → TruncAt buf it x.wire k2 →
              ∃ st err, Any.deserializeFuel L buf f (.integer 0) it buf.length = (st, .error err) ∧
                err.isUnderrun = true := by
            intro x hx it k2 hit hx2
            have := hx2.length_eq
            obtain ⟨err, e1, e2⟩ := ih x hx (itemsValid_mem hv.2 x hx) f (.integer 0) it k2
              (by omega) hx2
            exact ⟨_, err, e1, e2⟩
          have hg4 : TruncAt buf (b + 16) (itemsWire xs) (k - 8 - 8) := by
            simpa [Nat.add_assoc] using g4
          obtain ⟨st, err, e1, e2⟩ := deserializeItems_truncated xs (b + 16) [] (k - 8 - 8) hok hbad hg4
          rw [e1]
          exact ⟨err, rfl, e2⟩

/-- Truncation behind the count: on every strict prefix of a packet that still holds the
8 bytes of the count, `Serializator::deserialize` fails with one of the underrun errors;
it returns no sequence and dereferences no iterator at or beyond the end. -/
theorem Serializator.deserialize_truncated (L : Limits) (S : List Any)
    (hS : Serializator.valid L S = true) (n : Nat) (h8 : 8 ≤ n)
    (hn : n < (Serializator.serialize S).length) :
    ∃ err, Serializator.deserialize L ((Serializator.serialize S).take n) = .error err ∧
      err.isUnderrun = true := by
  have hL := L.vectorMax_lt
  simp only [Serializator.valid, Bool.and_eq_true, decide_eq_true_eq] at hS
  obtain ⟨buf, hbuf⟩ : ∃ buf, buf = (Serializator.serialize S).take n := ⟨_, rfl⟩
  rw [← hbuf]
  have ht : TruncAt buf 0 (le64 S.length ++ itemsWire S) n := by
    rw [← Serializator.serialize_eq_wire]
    exact ⟨hn, by rw [hbuf, List.drop_zero]⟩
  obtain ⟨g1, g2⟩ := ht.split (by rw [le64_length]; omega)
  rw [le64_length] at g2
  unfold Serializator.deserialize
  rw [(tools.deserialize_ok_iff _ 0 S.length (0 + 8)).2 ⟨rfl, by omega, g1⟩]
  have hm : ¬ L.vectorMax < S.length := by omega
  simp only [hm, if_false]
  obtain ⟨st, err, e1, e2⟩ := @deserializeItems_truncated buf
    (fun it => Any.deserialize L buf (.integer 0) it buf.length) S (0 + 8) [] (n - 8)
    (fun x hx it _ h1 h2 => Any.deserialize_complete L _ x (itemsValid_mem hS.2 x hx) _ it _ h1 h2)
    (fun x hx it k _ h1 => by
      obtain ⟨err, e1, e2⟩ := Any.deserializeFuel_truncated L buf x (itemsValid_mem hS.2 x hx)
        (fuelFor it buf.length) (.integer 0) it k
        (by have := h1.length_eq; unfold fuelFor; omega) h1
      exact ⟨_, err, e1, e2⟩)
    g2
  rw [e1]
  exact ⟨err, rfl, e2⟩

/-- C4, the failing inputs: on every prefix of fewer than 8 bytes of a packet, the empty
prefix included, `Serializator::deserialize` reads the count without any check and so
dereferences an iterator at or beyond the end of the buffer; no exception is thrown on
that path. -/
theorem Serializator.deserialize_below_eight (L : Limits) (S : List Any) (n : Fin 8) :
    Serializator.deserialize L ((Serializator.serialize S).take n) = .error .outOfBounds := by
  have hn := n.isLt
  have hlen : ((Serializator.serialize S).take n).length < 0 + 8 := by
    rw [List.length_take]
    omega
  unfold Serializator.deserialize
  rw [tools.deserialize_of_lt _ 0 hlen]

/-! ## The length check of the string decoder -/

/-- The length check of `StringType::deserialize` works for a declared length below
`2 ^ 63`: if it exceeds the bytes that remain in the range, the call fails with
"Buffer too small for data" and `value_` is untouched. -/
theorem StringType.deserialize_length_check (L : Limits) (buf : Buffer) (s0 : List Byte)
    (b e size : Nat) (hle : b + 16 ≤ e) (hat : HasAt buf b (le64 2 ++ le64 size))
    (h1 : e - (b + 16) < size) (h2 : size < 2 ^ 63) :
    StringType.deserialize L buf s0 b e = (s0, .error .tooSmallForData) := by
  have hd : distance (b + 16) e < toPtrdiff size := by
    rw [toPtrdiff_of_lt _ h2]
    unfold distance
    omega
  simp only [StringType.deserialize,
    BaseType.deserializeSize_eval .String buf b e size hle (by omega) hat, hd, if_true]

/-- C10, the failing inputs: for a declared length `size` of `2 ^ 63` or more the length
check of `StringType::deserialize` is passed, whatever the number of bytes that remain in
the range, because `static_cast<std::ptrdiff_t>(size)` is negative; the call then clears
`value_` and fails in `reserve` with `std::length_error`, not with
"Buffer too small for data". -/
theorem StringType.deserialize_huge_length (L : Limits) (buf : Buffer) (s0 : List Byte)
    (b e size : Nat) (hle : b + 16 ≤ e) (hat : HasAt buf b (le64 2 ++ le64 size))
    (h1 : 2 ^ 63 ≤ size) (h2 : size < 2 ^ 64) :
    StringType.deserialize L buf s0 b e = ([], .error .lengthError) := by
  have hL := L.stringMax_lt
  have hd : ¬ distance (b + 16) e < toPtrdiff size := by
    have := toPtrdiff_of_ge size h1 h2
    unfold distance
    omega
  have hm : L.stringMax < size := by omega
  simp only [StringType.deserialize,
    BaseType.deserializeSize_eval .String buf b e size hle h2 hat, hd, if_false, hm, if_true]

/-- Witness of `StringType.deserialize_huge_length`: a range of 16 bytes, tag 2 and the
length `2 ^ 63`, with no byte behind the length field. -/
theorem StringType.deserialize_huge_length_witness :
    0 + 16 ≤ 16 ∧ HasAt (le64 2 ++ le64 (2 ^ 63)) 0 (le64 2 ++ le64 (2 ^ 63)) ∧
      2 ^ 63 ≤ 2 ^ 63 ∧ 2 ^ 63 < 2 ^ 64 ∧
      StringType.deserialize Limits.libstdcxx (le64 2 ++ le64 (2 ^ 63)) [0x61] 0 16
        = ([], .error .lengthError) :=
  ⟨by decide, List.prefix_refl _, by decide, by decide,
    StringType.deserialize_huge_length Limits.libstdcxx (le64 2 ++ le64 (2 ^ 63)) [0x61] 0 16
      (2 ^ 63) (by decide) (List.prefix_refl _) (by decide) (by decide)⟩

/-! ## Tag mismatch in the concrete decoders -/

theorem BaseType.deserializeId_mismatch (T : TypeId) (buf : Buffer) (b e t c : Nat)
    (hle : b + 8 ≤ e) (hr : tools.deserialize buf b = .ok (t, c)) (hne : t ≠ T.toId) :
    BaseType.deserializeId T buf b e = .error .typeIdMismatch := by
  have hd : ¬ distance b e < 8 := by unfold distance; omega
  simp only [BaseType.deserializeId, hd, if_false, hr, ne_eq, hne, not_false_eq_true, if_true]

/-- C11: for each concrete kind (`IntegerType`, `FloatType`, `StringType`, `VectorType`) and
every range of at least 8 bytes whose first 8 bytes decode to a number `t` different from
the tag of the kind, `deserialize` of that kind fails with "Type ID mismatch", whatever
bytes follow, and the `value_` of the object is the same as before the call. -/
theorem BaseType.deserialize_tag_mismatch (L : Limits) (buf : Buffer) (begin end_ t c : Nat)
    (hle : begin + 8 ≤ end_) (hr : tools.deserialize buf begin = .ok (t, c)) :
    (t ≠ 0 → ∀ v0, IntegerType.deserialize buf v0 begin end_ = (v0, .error .typeIdMismatch)) ∧
    (t ≠ 1 → ∀ v0, FloatType.deserialize buf v0 begin end_ = (v0, .error .typeIdMismatch)) ∧
    (t ≠ 2 → ∀ s0, StringType.deserialize L buf s0 begin end_ = (s0, .error .typeIdMismatch)) ∧
    (t ≠ 3 → ∀ xs0, VectorType.deserialize L buf xs0 begin end_
      = (xs0, .error .typeIdMismatch)) := by
  refine ⟨fun h v0 => ?_, fun h v0 => ?_, fun h s0 => ?_, fun h xs0 => ?_⟩
  · simp only [IntegerType.deserialize, BaseType.deserializeArithmetic,
      BaseType.deserializeId_mismatch .Uint buf begin end_ t c hle hr h]
  · simp only [FloatType.deserialize, BaseType.deserializeArithmetic,
      BaseType.deserializeId_mismatch .Float buf begin end_ t c hle hr h]
  · simp only [StringType.deserialize, BaseType.deserializeSize,
      BaseType.deserializeId_mismatch .String buf begin end_ t c hle hr h]
  · simp only [VectorType.deserialize, VectorType.deserializeWith, BaseType.deserializeSize,
      BaseType.deserializeId_mismatch .Vector buf begin end_ t c hle hr h]

/-- Witness of `BaseType.deserialize_tag_mismatch`: 16 bytes that start with the number 7,
decoded into objects of the four kinds that hold a payload. -/
theorem BaseType.deserialize_tag_mismatch_witness :
    0 + 8 ≤ 16 ∧ tools.deserialize (le64 7 ++ le64 0) 0 = .ok (7, 8) ∧
      IntegerType.deserialize (le64 7 ++ le64 0) 5 0 16 = (5, .error .typeIdMismatch) ∧
      FloatType.deserialize (le64 7 ++ le64 0) 5 0 16 = (5, .error .typeIdMismatch) ∧
      StringType.deserialize Limits.libstdcxx (le64 7 ++ le64 0) [0x61] 0 16
        = ([0x61], .error .typeIdMismatch) ∧
      VectorType.deserialize Limits.libstdcxx (le64 7 ++ le64 0) [.integer 5] 0 16
        = ([.integer 5], .error .typeIdMismatch) :=
  have h := BaseType.deserialize_tag_mismatch Limits.libstdcxx (le64 7 ++ le64 0) 0 16 7 8
    (by decide) (by rfl)
  ⟨by decide, by rfl, h.1 (by decide) 5, h.2.1 (by decide) 5, h.2.2.1 (by decide) [0x61],
    h.2.2.2 (by decide) [.integer 5]⟩

/-! ## The wire grammar -/

theorem itemsWire_eq_flatten (xs : List Any) : itemsWire xs = (xs.map Any.wire).flatten := by
  induction xs with
  | nil => rfl
  | cons x xs ih => simp [itemsWire, ih]

theorem flatten_serialize (xs : List Any) :
    (xs.map (fun v => v.serialize [])).flatten = itemsWire xs := by
  induction xs with
  | nil => rfl
  | cons x xs ih => simp [itemsWire, ih, x.serialize_eq]

/-- C12: `Any::serialize` appends to the buffer, leaving its previous content unchanged as a
prefix, exactly the wire form `wire v` of the value, where `wire (Integer n)` is `le64 0`
followed by `le64 n`, `wire (Float x)` is `le64 1` followed by the 8 bytes of the bit
pattern of `x`, least significant first, `wire (String s)` is `le64 2`, then `le64` of the
length of `s`, then the bytes of `s` and nothing else, and `wire (Vector [v1..vk])` is
`le64 3`, then `le64 k`, then `wire v1`, ..., `wire vk`. -/
theorem Any.serialize_wire (v : Any) (buff : Buffer) :
    v.serialize buff = buff ++ v.wire ∧
      (∀ n, (Any.integer n).wire = le64 0 ++ le64 n) ∧
      (∀ bits, (Any.float bits).wire = le64 1 ++ le64 bits) ∧
      (∀ str, (Any.string str).wire = le64 2 ++ le64 str.length ++ str) ∧
      (∀ xs, (Any.vector xs).wire = le64 3 ++ le64 xs.length ++ (xs.map Any.wire).flatten) ∧
      (∀ x, le64 x = (List.range 8).map (fun i => (Fin.ofNat (x / 256 ^ i) : Byte))) := by
  refine ⟨v.serialize_eq buff, fun _ => rfl, fun _ => rfl, fun _ => rfl, fun xs => ?_, fun x => ?_⟩
  · simp only [Any.wire, itemsWire_eq_flatten]
  · simp [le64, List.range_succ]

/-- C13: for every sequence `v1..vn` pushed in that order into an initially empty
`Serializator`, `getStorage()` is exactly `[v1..vn]`, each `push` appending at the end
without touching or comparing with the elements already there, and `serialize()` returns
`le64 n` followed by the serializations of `v1..vn` in push order, the count coming first
with no tag in front of it. -/
theorem Serializator.push_order (vs : List Any) :
    Serializator.pushAll [] vs = vs ∧
      (∀ (storage_ : List Any) (v : Any), Serializator.push storage_ v = storage_ ++ [v]) ∧
      Serializator.serialize (Serializator.pushAll [] vs)
        = le64 vs.length ++ (vs.map (fun v => v.serialize [])).flatten := by
  refine ⟨by simp [Serializator.pushAll_eq], fun _ _ => rfl, ?_⟩
  rw [Serializator.pushAll_eq, List.nil_append, Serializator.serialize_eq_wire, flatten_serialize]

/-- C14: for every 64-bit unsigned `x` and every buffer, `tools::serialize<uint64_t>`
appends exactly 8 bytes and changes no byte that was there, the i-th appended byte
(`i = 0..7`) being `(x / 256 ^ i) mod 256`; and `tools::deserialize<uint64_t>` reading those
8 bytes returns `x` and advances the cursor by exactly 8. -/
theorem tools.serialize_little_endian (x : Nat) (hx : x < 2 ^ 64) (buff rest : Buffer) :
    (tools.serialize x buff).length = buff.length + 8 ∧
      (tools.serialize x buff).take buff.length = buff ∧
      (∀ i, i < 8 →
        ((tools.serialize x buff)[buff.length + i]?).map Fin.val = some (x / 256 ^ i % 256)) ∧
      tools.deserialize (tools.serialize x buff ++ rest) buff.length
        = .ok (x, buff.length + 8) := by
  rw [tools.serialize_eq_le64]
  refine ⟨by simp [le64_length], by simp, ?_, ?_⟩
  · intro i hi
    rw [List.getElem?_append_right (by omega), Nat.add_sub_cancel_left]
    have : i = 0 ∨ i = 1 ∨ i = 2 ∨ i = 3 ∨ i = 4 ∨ i = 5 ∨ i = 6 ∨ i = 7 := by omega
    rcases this with h | h | h | h | h | h | h | h <;> subst h <;> simp [le64, Fin.ofNat]
  · exact (tools.deserialize_ok_iff _ _ _ _).2 ⟨rfl, hx, hasAt_append_left buff (le64 x) rest⟩

/-- Witness of `tools.serialize_little_endian`: the number 100500 behind one byte. -/
theorem tools.serialize_little_endian_witness :
    100500 < 2 ^ 64 ∧
      ((tools.serialize 100500 [0xAB]).length = ([0xAB] : Buffer).length + 8 ∧
      (tools.serialize 100500 [0xAB]).take ([0xAB] : Buffer).length = [0xAB] ∧
      (∀ i, i < 8 →
        ((tools.serialize 100500 [0xAB])[([0xAB] : Buffer).length + i]?).map Fin.val
          = some (100500 / 256 ^ i % 256)) ∧
      tools.deserialize (tools.serialize 100500 [0xAB] ++ [0xCD]) ([0xAB] : Buffer).length
        = .ok (100500, ([0xAB] : Buffer).length + 8)) :=
  ⟨by decide, tools.serialize_little_endian 100500 (by decide) [0xAB] [0xCD]⟩

/-! ## Equality, kind by kind -/

theorem eqItems_iff (xs : List Any) :
    ∀ ys : List Any, eqItems xs ys = true ↔
      xs.length = ys.length ∧
        ∀ (i : Nat) (x y : Any), xs[i]? = some x → ys[i]? = some y → x.eq y = true := by
  induction xs with
  | nil =>
    intro ys
    cases ys with
    | nil => simp [eqItems]
    | cons y ys => simp [eqItems]
  | cons x xs ih =>
    intro ys
    cases ys with
    | nil => simp [eqItems]
    | cons y ys =>
      simp only [eqItems, Bool.and_eq_true, ih ys, List.length_cons, Nat.add_right_cancel_iff]
      constructor
      · rintro ⟨h1, h2, h3⟩
        refine ⟨h2, ?_⟩
        intro i a b ha hb
        cases i with
        | zero =>
          simp only [List.getElem?_cons_zero, Option.some.injEq] at ha hb
          subst ha
          subst hb
          exact h1
        | succ i =>
          simp only [List.getElem?_cons_succ] at ha hb
          exact h3 i a b ha hb
      · rintro ⟨h1, h2⟩
        exact ⟨h2 0 x y (by simp) (by simp), h1,
          fun i a b ha hb => h2 (i + 1) a b (by simpa using ha) (by simpa using hb)⟩

/-- C16: for all `Any` values `a` and `b`, `a == b` holds if and only if `a` and `b` hold
the same concrete kind and their payloads are equal under the equality of that kind: the
same number for integers, `==` of the two doubles for floats, the same bytes for strings,
the same length and pairwise equal elements in order for vectors; two values of
different kinds never compare equal. -/
theorem Any.eq_iff (a b : Any) :
    (a.eq b = true ↔
      match a, b with
      | .integer x, .integer y => x = y
      | .float x, .float y => doubleEq x y = true
      | .string x, .string y => x = y
      | .vector xs, .vector ys =>
        xs.length = ys.length ∧
          ∀ (i : Nat) (x y : Any), xs[i]? = some x → ys[i]? = some y → x.eq y = true
      | _, _ => False) ∧
    (a.getPayloadTypeId ≠ b.getPayloadTypeId → a.eq b = false) := by
  cases a <;> cases b <;>
    simp [Any.eq, Any.getPayloadTypeId, eqItems_iff]

/-! ## Bytes behind the packet -/

/-- C19: for every packet `p` returned by `Serializator::serialize` (of values that satisfy
the invariant of the C++ types) and every byte sequence `r`, `Serializator::deserialize`
of `p` followed by `r` succeeds and returns the same sequence as
`Serializator::deserialize` of `p`, namely the values that were serialized; the bytes of
`r` play no part. -/
theorem Serializator.deserialize_trailing (L : Limits) (S : List Any)
    (hS : Serializator.valid L S = true) (r : Buffer) :
    Serializator.deserialize L (Serializator.serialize S ++ r) = .ok S ∧
      Serializator.deserialize L (Serializator.serialize S ++ r)
        = Serializator.deserialize L (Serializator.serialize S) := by
  have h1 := Serializator.deserialize_packet_complete L S hS r
  have h2 := Serializator.deserialize_packet_complete L S hS []
  rw [List.append_nil] at h2
  exact ⟨h1, h1.trans h2.symm⟩

/-- Witness of `Serializator.deserialize_trailing`: the packet of the header comment
followed by three bytes. -/
theorem Serializator.deserialize_trailing_witness :
    Serializator.valid Limits.libstdcxx [exampleValue] = true ∧
      (Serializator.deserialize Limits.libstdcxx
          (Serializator.serialize [exampleValue] ++ [0xDE, 0xAD, 0x03]) = .ok [exampleValue] ∧
      Serializator.deserialize Limits.libstdcxx
          (Serializator.serialize [exampleValue] ++ [0xDE, 0xAD, 0x03])
        = Serializator.deserialize Limits.libstdcxx (Serializator.serialize [exampleValue])) :=
  ⟨by decide, Serializator.deserialize_trailing Limits.libstdcxx [exampleValue] (by decide)
    [0xDE, 0xAD, 0x03]⟩

/-! ## The errors of the decoders and the state they leave behind -/

theorem BaseType.deserializeId_of_tag (T : TypeId) (buf : Buffer) (b e : Nat) (hle : b + 8 ≤ e)
    (hat : HasAt buf b (le64 T.toId)) : BaseType.deserializeId T buf b e = .ok (b + 8) :=
  (BaseType.deserializeId_ok_iff T buf b e (b + 8)).2 ⟨hle, rfl, hat⟩

theorem BaseType.deserializeArithmetic_error (T : TypeId) (buf : Buffer) (v0 b e v : Nat)
    (err : Err) (hle : b + 8 ≤ e) (hat : HasAt buf b (le64 T.toId))
    (h : BaseType.deserializeArithmetic T buf v0 b e = (v, .error err)) :
    v = v0 ∧ (err = .tooSmallForValue ∨ (err = .outOfBounds ∧ buf.length < e)) := by
  simp only [BaseType.deserializeArithmetic, BaseType.deserializeId_of_tag T buf b e hle hat] at h
  by_cases hd : distance (b + 8) e < 8
  · simp only [hd, if_true, Prod.mk.injEq, Except.error.injEq] at h
    exact ⟨h.1.symm, Or.inl h.2.symm⟩
  · simp only [hd, if_false] at h
    unfold distance at hd
    cases hr : tools.deserialize buf (b + 8) with
    | error e2 =>
      rw [hr] at h
      simp only [Prod.mk.injEq, Except.error.injEq] at h
      obtain ⟨h1, h2⟩ := tools.deserialize_error buf (b + 8) e2 hr
      exact ⟨h.1.symm, Or.inr ⟨by rw [← h.2, h1], by omega⟩⟩
    | ok r =>
      rw [hr] at h
      simp only [Prod.mk.injEq, reduceCtorEq, and_false] at h

theorem BaseType.deserializeSize_error (T : TypeId) (buf : Buffer) (b e : Nat) (err : Err)
    (hle : b + 8 ≤ e) (hat : HasAt buf b (le64 T.toId))
    (h : BaseType.deserializeSize T buf b e = .error err) :
    err = .tooSmallForSize ∨ err = .tooSmallForData ∨ (err = .outOfBounds ∧ buf.length < e) := by
  simp only [BaseType.deserializeSize, BaseType.deserializeId_of_tag T buf b e hle hat] at h
  by_cases hd : distance (b + 8) e < 8
  · simp only [hd, if_true, Except.error.injEq] at h
    exact Or.inl h.symm
  · simp only [hd, if_false] at h
    unfold distance at hd
    cases hr : tools.deserialize buf (b + 8) with
    | error e2 =>
      rw [hr] at h
      simp only [Except.error.injEq] at h
      obtain ⟨h1, h2⟩ := tools.deserialize_error buf (b + 8) e2 hr
      exact Or.inr (Or.inr ⟨by rw [← h, h1], by omega⟩)
    | ok r =>
      rw [hr] at h
      simp only at h
      split at h
      · simp only [Except.error.injEq] at h
        exact Or.inr (Or.inl h.symm)
      · cases h

theorem StringType.deserializeLoop_error_oob (buf : Buffer) :
    ∀ (n it : Nat) (acc st : List Byte) (err : Err),
      StringType.deserializeLoop buf n it acc = (st, .error err) →
        err = .outOfBounds ∧ buf.length < it + n := by
  intro n
  induction n with
  | zero =>
    intro it acc st err h
    simp only [StringType.deserializeLoop, Prod.mk.injEq, reduceCtorEq, and_false] at h
  | succ n ih =>
    intro it acc st err h
    simp only [StringType.deserializeLoop] at h
    cases hb : buf[it]? with
    | none =>
      rw [hb] at h
      simp only [Prod.mk.injEq, Except.error.injEq] at h
      have hlt : ¬ it < buf.length := by
        intro hc
        rw [List.getElem?_eq_getElem hc] at hb
        cases hb
      exact ⟨h.2.symm, by omega⟩
    | some x =>
      rw [hb] at h
      have := ih (it + 1) _ st err h
      exact ⟨this.1, by omega⟩

theorem StringType.deserialize_string_error (L : Limits) (buf : Buffer) (s0 : List Byte) (b e : Nat)
    (s : List Byte) (err : Err) (hle : b + 8 ≤ e) (hat : HasAt buf b (le64 2))
    (h : StringType.deserialize L buf s0 b e = (s, .error err)) :
    err = .tooSmallForSize ∨ err = .tooSmallForData ∨ err = .lengthError ∨
      (err = .outOfBounds ∧ buf.length < e) := by
  have hL := L.stringMax_lt
  unfold StringType.deserialize at h
  cases hsz : BaseType.deserializeSize .String buf b e with
  | error e2 =>
    rw [hsz] at h
    simp only [Prod.mk.injEq, Except.error.injEq] at h
    rcases BaseType.deserializeSize_error .String buf b e e2 hle hat hsz with g | g | g
    · exact Or.inl (by rw [← h.2, g])
    · exact Or.inr (Or.inl (by rw [← h.2, g]))
    · exact Or.inr (Or.inr (Or.inr ⟨by rw [← h.2, g.1], g.2⟩))
  | ok r =>
    obtain ⟨size, it⟩ := r
    obtain ⟨h1, h2, h3, h4, h5⟩ := (BaseType.deserializeSize_ok_iff .String buf b e size it).1 hsz
    subst h2
    rw [hsz] at h
    simp only at h
    by_cases hm : L.stringMax < size
    · simp only [hm, if_true, Prod.mk.injEq, Except.error.injEq] at h
      exact Or.inr (Or.inr (Or.inl h.2.symm))
    · simp only [hm, if_false] at h
      rw [toPtrdiff_of_lt _ (by omega)] at h5
      obtain ⟨g1, g2⟩ := StringType.deserializeLoop_error_oob buf size (b + 16) [] s err h
      exact Or.inr (Or.inr (Or.inr ⟨g1, by omega⟩))

theorem deserializeItems_error {buf : Buffer} {e fuel : Nat} {L : Limits}
    {dec : Nat → Any × Except Err Nat} (hdec : DecSound L buf e fuel dec) :
    ∀ (n it : Nat) (acc st : List Any) (err : Err),
      deserializeItems dec n it acc = (st, .error err) →
        ∃ xs a, st = acc ++ xs ∧ xs.length < n ∧ itemsValid L xs = true ∧
          HasAt buf it (itemsWire xs) ∧ (it ≤ e → it + (itemsWire xs).length ≤ e) ∧
          dec (it + (itemsWire xs).length) = (a, .error err) := by
  intro n
  induction n with
  | zero =>
    intro it acc st err h
    simp only [deserializeItems, Prod.mk.injEq, reduceCtorEq, and_false] at h
  | succ n ih =>
    intro it acc st err h
    simp only [deserializeItems] at h
    cases hd : dec it with
    | mk a r =>
      cases r with
      | error e2 =>
        rw [hd] at h
        simp only [Prod.mk.injEq, Except.error.injEq] at h
        refine ⟨[], a, by simp [h.1], by simp, rfl, hasAt_nil _ _, ?_, ?_⟩
        · intro hit
          simpa [itemsWire] using hit
        · simp only [itemsWire, List.length_nil, Nat.add_zero]
          rw [hd, h.2]
      | ok it2 =>
        rw [hd] at h
        simp only at h
        obtain ⟨g1, g2, g3, g4, _⟩ := hdec it a it2 hd
        obtain ⟨xs, a2, k1, k2, k3, k4, k5, k6⟩ := ih it2 (acc ++ [a]) st err h
        subst g3
        refine ⟨a :: xs, a2, by simp [k1], by simp only [List.length_cons]; omega,
          by simp [itemsValid, g1, k3], ?_, ?_, ?_⟩
        · simp only [itemsWire]
          rw [hasAt_append]
          exact ⟨g2, k4⟩
        · intro _
          have := k5 g4
          simp only [itemsWire, List.length_append]
          omega
        · simp only [itemsWire, List.length_append]
          rw [← Nat.add_assoc]
          exact k6

theorem VectorType.deserializeWith_error {L : Limits} {buf : Buffer} {e fuel : Nat}
    {dec : Nat → Any × Except Err Nat} (hdec : DecSound L buf e fuel dec)
    (v0 : List Any) (b : Nat) (st : List Any) (err : Err)
    (h : VectorType.deserializeWith dec L buf v0 b e = (st, .error err)) :
    (st = v0 ∧ BaseType.deserializeSize .Vector buf b e = .error err) ∨
      (st = [] ∧ err = .lengthError) ∨
      (b + 16 ≤ e ∧ itemsValid L st = true ∧ HasAt buf (b + 16) (itemsWire st) ∧
        b + 16 + (itemsWire st).length ≤ e ∧
        ∃ a, dec (b + 16 + (itemsWire st).length) = (a, .error err)) := by
  unfold VectorType.deserializeWith at h
  cases hsz : BaseType.deserializeSize .Vector buf b e with
  | error e2 =>
    rw [hsz] at h
    simp only [Prod.mk.injEq, Except.error.injEq] at h
    exact Or.inl ⟨h.1.symm, by rw [h.2]⟩
  | ok r =>
    obtain ⟨size, it⟩ := r
    obtain ⟨h1, h2, h3, h4, h5⟩ := (BaseType.deserializeSize_ok_iff .Vector buf b e size it).1 hsz
    subst h2
    rw [hsz] at h
    simp only at h
    by_cases hm : L.vectorMax < size
    · simp only [hm, if_true, Prod.mk.injEq, Except.error.injEq] at h
      exact Or.inr (Or.inl ⟨h.1.symm, h.2.symm⟩)
    · simp only [hm, if_false] at h
      obtain ⟨xs, a, k1, k2, k3, k4, k5, k6⟩ := deserializeItems_error hdec size (b + 16) [] st err h
      simp only [List.nil_append] at k1
      subst k1
      exact Or.inr (Or.inr ⟨h1, k3, k4, k5 h1, a, k6⟩)

theorem Any.deserializeFuel_error (L : Limits) (buf : Buffer) (e : Nat) :
    ∀ (fuel : Nat) (d : Any) (b : Nat) (d2 : Any) (err : Err), (e - b) / 16 < fuel →
      Any.deserializeFuel L buf fuel d b e = (d2, .error err) → d2 = d ∧ ViaAny buf e err := by
  intro fuel
  induction fuel with
  | zero => intro d b d2 err hf; omega
  | succ fuel ih =>
    intro d b d2 err hf h
    by_cases hd : distance b e < 8
    · simp only [Any.deserializeFuel, hd, if_true, Prod.mk.injEq, Except.error.injEq] at h
      exact ⟨h.1.symm, Or.inl h.2.symm⟩
    · have hle : b + 8 ≤ e := by unfold distance at hd; omega
      cases hr : tools.deserialize buf b with
      | error e2 =>
        simp only [Any.deserializeFuel, hd, if_false, hr, Prod.mk.injEq, Except.error.injEq] at h
        obtain ⟨h1, h2⟩ := tools.deserialize_error buf b e2 hr
        exact ⟨h.1.symm, Or.inr (Or.inr (Or.inr (Or.inr (Or.inr (Or.inr
          ⟨by rw [← h.2, h1], by omega⟩)))))⟩
      | ok r =>
        obtain ⟨t, c⟩ := r
        obtain ⟨_, ht, hat⟩ := (tools.deserialize_ok_iff buf b t c).1 hr
        rw [Any.deserializeFuel_succ L buf fuel d b e t hle ht hat] at h
        by_cases h0 : t = 0
        · subst h0
          simp only [if_true] at h
          cases hi : IntegerType.deserialize buf 0 b e with
          | mk v r =>
            rw [hi] at h
            cases r with
            | ok it => simp only [Prod.mk.injEq, reduceCtorEq, and_false] at h
            | error e2 =>
              simp only [Prod.mk.injEq, Except.error.injEq] at h
              obtain ⟨_, g⟩ := BaseType.deserializeArithmetic_error .Uint buf 0 b e v e2 hle hat hi
              rw [← h.2]
              refine ⟨h.1.symm, ?_⟩
              rcases g with g | g
              · exact Or.inr (Or.inl g)
              · exact Or.inr (Or.inr (Or.inr (Or.inr (Or.inr (Or.inr g)))))
        · by_cases h1 : t = 1
          · subst h1
            simp only [one_ne_zero, if_false, if_true] at h
            cases hi : FloatType.deserialize buf 0 b e with
            | mk v r =>
              rw [hi] at h
              cases r with
              | ok it => simp only [Prod.mk.injEq, reduceCtorEq, and_false] at h
              | error e2 =>
                simp only [Prod.mk.injEq, Except.error.injEq] at h
                obtain ⟨_, g⟩ :=
                  BaseType.deserializeArithmetic_error .Float buf 0 b e v e2 hle hat hi
                rw [← h.2]
                refine ⟨h.1.symm, ?_⟩
                rcases g with g | g
                · exact Or.inr (Or.inl g)
                · exact Or.inr (Or.inr (Or.inr (Or.inr (Or.inr (Or.inr g)))))
          · by_cases h2 : t = 2
            · subst h2
              simp only [OfNat.ofNat_ne_zero, OfNat.ofNat_ne_one, if_false, if_true] at h
              cases hi : StringType.deserialize L buf [] b e with
              | mk v r =>
                rw [hi] at h
                cases r with
                | ok it => simp only [Prod.mk.injEq, reduceCtorEq, and_false] at h
                | error e2 =>
                  simp only [Prod.mk.injEq, Except.error.injEq] at h
                  have g := StringType.deserialize_string_error L buf [] b e v e2 hle hat hi
                  rw [← h.2]
                  refine ⟨h.1.symm, ?_⟩
                  rcases g with g | g | g | g
                  · exact Or.inr (Or.inr (Or.inl g))
                  · exact Or.inr (Or.inr (Or.inr (Or.inl g)))
                  · exact Or.inr (Or.inr (Or.inr (Or.inr (Or.inr (Or.inl g)))))
                  · exact Or.inr (Or.inr (Or.inr (Or.inr (Or.inr (Or.inr g)))))
            · by_cases h3 : t = 3
              · subst h3
                have h32 : ¬ (3 : Nat) = 2 := by decide
                simp only [OfNat.ofNat_ne_zero, OfNat.ofNat_ne_one, h32, if_false, if_true] at h
                cases hi : VectorType.deserializeWith
                    (fun it => Any.deserializeFuel L buf fuel (.integer 0) it e) L buf [] b e with
                | mk v r =>
                  rw [hi] at h
                  cases r with
                  | ok it => simp only [Prod.mk.injEq, reduceCtorEq, and_false] at h
                  | error e2 =>
                    simp only [Prod.mk.injEq, Except.error.injEq] at h
                    rw [← h.2]
                    refine ⟨h.1.symm, ?_⟩
                    rcases VectorType.deserializeWith_error
                      (Any.deserializeFuel_sound L buf e fuel (.integer 0)) [] b v e2 hi
                      with g | g | g
                    · rcases BaseType.deserializeSize_error .Vector buf b e e2 hle hat g.2
                        with k | k | k
                      · exact Or.inr (Or.inr (Or.inl k))
                      · exact Or.inr (Or.inr (Or.inr (Or.inl k)))
                      · exact Or.inr (Or.inr (Or.inr (Or.inr (Or.inr (Or.inr k)))))
                    · exact Or.inr (Or.inr (Or.inr (Or.inr (Or.inr (Or.inl g.2)))))
                    · obtain ⟨g1, _, _, g4, a, g5⟩ := g
                      exact (ih (.integer 0) _ a e2 (by omega) g5).2
              · simp only [h0, h1, h2, h3, if_false, Prod.mk.injEq, Except.error.injEq] at h
                exact ⟨h.1.symm, Or.inr (Or.inr (Or.inr (Or.inr (Or.inl h.2.symm))))⟩

theorem Any.deserialize_any_error (L : Limits) (buf : Buffer) (d : Any) (b e : Nat) (d2 : Any)
    (err : Err) (h : Any.deserialize L buf d b e = (d2, .error err)) :
    d2 = d ∧ ViaAny buf e err :=
  Any.deserializeFuel_error L buf e (fuelFor b e) d b d2 err (by unfold fuelFor; omega) h

theorem Serializator.deserialize_packet_error (L : Limits) (val : Buffer) (err : Err)
    (h : Serializator.deserialize L val = .error err) :
    (err = .outOfBounds ∧ val.length < 8) ∨ err = .lengthError ∨
      err = .invalidBufferSize ∨ err = .tooSmallForValue ∨ err = .tooSmallForSize ∨
      err = .tooSmallForData ∨ err = .unknownTypeId := by
  unfold Serializator.deserialize at h
  cases hr : tools.deserialize val 0 with
  | error e2 =>
    rw [hr] at h
    simp only [Except.error.injEq] at h
    obtain ⟨h1, h2⟩ := tools.deserialize_error val 0 e2 hr
    exact Or.inl ⟨by rw [← h, h1], by omega⟩
  | ok r =>
    obtain ⟨size, it⟩ := r
    rw [hr] at h
    simp only at h
    by_cases hm : L.vectorMax < size
    · simp only [hm, if_true, Except.error.injEq] at h
      exact Or.inr (Or.inl h.symm)
    · simp only [hm, if_false] at h
      cases hi : deserializeItems (fun it => Any.deserialize L val (.integer 0) it val.length)
          size it [] with
      | mk st r =>
        rw [hi] at h
        cases r with
        | ok c => cases h
        | error e2 =>
          simp only [Except.error.injEq] at h
          subst h
          obtain ⟨xs, a, _, _, _, _, _, k6⟩ :=
            deserializeItems_error (Any.deserialize_decSound L val val.length (.integer 0)) size it
              [] st e2 hi
          rcases (Any.deserialize_any_error L val _ _ _ a e2 k6).2 with g | g | g | g | g | g | g
          · exact Or.inr (Or.inr (Or.inl g))
          · exact Or.inr (Or.inr (Or.inr (Or.inl g)))
          · exact Or.inr (Or.inr (Or.inr (Or.inr (Or.inl g))))
          · exact Or.inr (Or.inr (Or.inr (Or.inr (Or.inr (Or.inl g)))))
          · exact Or.inr (Or.inr (Or.inr (Or.inr (Or.inr (Or.inr g)))))
          · exact Or.inr (Or.inl g)
          · omega

/-! ## Progress and termination -/

theorem deserializeItems_congr {dec1 dec2 : Nat → Any × Except Err Nat} (start : Nat)
    (hmono : ∀ it a c, dec1 it = (a, .ok c) → it ≤ c)
    (heq : ∀ it, start ≤ it → dec1 it = dec2 it) :
    ∀ (n it : Nat) (acc : List Any), start ≤ it →
      deserializeItems dec1 n it acc = deserializeItems dec2 n it acc := by
  intro n
  induction n with
  | zero => intro it acc _; rfl
  | succ n ih =>
    intro it acc hit
    simp only [deserializeItems]
    rw [← heq it hit]
    cases hd : dec1 it with
    | mk a r =>
      cases r with
      | error err => rfl
      | ok c =>
        have := hmono it a c hd
        exact ih c (acc ++ [a]) (by omega)

theorem VectorType.deserializeWith_congr {dec1 dec2 : Nat → Any × Except Err Nat} (L : Limits)
    (buf : Buffer) (v0 : List Any) (b e : Nat)
    (hmono : ∀ it a c, dec1 it = (a, .ok c) → it ≤ c)
    (heq : b + 16 ≤ e → ∀ it, b + 16 ≤ it → dec1 it = dec2 it) :
    VectorType.deserializeWith dec1 L buf v0 b e = VectorType.deserializeWith dec2 L buf v0 b e := by
  unfold VectorType.deserializeWith
  cases hsz : BaseType.deserializeSize .Vector buf b e with
  | error err => rfl
  | ok r =>
    obtain ⟨size, it⟩ := r
    obtain ⟨h1, h2, _, _, _⟩ := (BaseType.deserializeSize_ok_iff .Vector buf b e size it).1 hsz
    subst h2
    simp only
    by_cases hm : L.vectorMax < size
    · simp only [hm, if_true]
    · simp only [hm, if_false]
      exact deserializeItems_congr (b + 16) hmono (heq h1) size (b + 16) [] (Nat.le_refl _)

theorem Any.deserializeFuel_fuel (L : Limits) (buf : Buffer) (e : Nat) :
    ∀ (f1 f2 : Nat) (d : Any) (b : Nat), (e - b) / 16 < f1 → (e - b) / 16 < f2 →
      Any.deserializeFuel L buf f1 d b e = Any.deserializeFuel L buf f2 d b e := by
  intro f1
  induction f1 with
  | zero => intro f2 d b h1; omega
  | succ f1 ih =>
    intro f2 d b h1 h2
    obtain ⟨g2, rfl⟩ : ∃ g, f2 = g + 1 := ⟨f2 - 1, by omega⟩
    by_cases hd : distance b e < 8
    · simp only [Any.deserializeFuel, hd, if_true]
    · have hle : b + 8 ≤ e := by unfold distance at hd; omega
      cases hr : tools.deserialize buf b with
      | error e2 => simp only [Any.deserializeFuel, hd, if_false, hr]
      | ok r =>
        obtain ⟨t, c⟩ := r
        obtain ⟨_, ht, hat⟩ := (tools.deserialize_ok_iff buf b t c).1 hr
        rw [Any.deserializeFuel_succ L buf f1 d b e t hle ht hat,
          Any.deserializeFuel_succ L buf g2 d b e t hle ht hat]
        have hv : VectorType.deserializeWith
              (fun it => Any.deserializeFuel L buf f1 (.integer 0) it e) L buf [] b e
            = VectorType.deserializeWith
              (fun it => Any.deserializeFuel L buf g2 (.integer 0) it e) L buf [] b e := by
          apply VectorType.deserializeWith_congr
          · intro it a c hdec
            have := (Any.deserializeFuel_sound L buf e f1 (.integer 0) it a c hdec).2.2.1
            omega
          · intro h16 it hit
            exact ih g2 (.integer 0) it (by omega) (by omega)
        rw [hv]

theorem deserializeItems_count {dec : Nat → Any × Except Err Nat} (e : Nat)
    (hdec : ∀ it a c, dec it = (a, .ok c) → it + 16 ≤ c ∧ c ≤ e) :
    ∀ (n m it : Nat) (acc : List Any), (e - it) / 16 < n → (e - it) / 16 < m →
      deserializeItems dec n it acc = deserializeItems dec m it acc ∧
        ∃ st err, deserializeItems dec n it acc = (st, .error err) := by
  intro n
  induction n with
  | zero => intro m it acc h; omega
  | succ n ih =>
    intro m it acc h1 h2
    obtain ⟨m2, rfl⟩ : ∃ g, m = g + 1 := ⟨m - 1, by omega⟩
    simp only [deserializeItems]
    cases hd : dec it with
    | mk a r =>
      cases r with
      | error err => exact ⟨rfl, acc, err, rfl⟩
      | ok c =>
        have := hdec it a c hd
        exact ih m2 c (acc ++ [a]) (by omega) (by omega)

theorem Any.deserialize_advance (L : Limits) (buf : Buffer) (d : Any) (b e : Nat) (a : Any)
    (c : Nat) (h : Any.deserialize L buf d b e = (a, .ok c)) : b + 16 ≤ c ∧ c ≤ e := by
  obtain ⟨_, _, h3, h4⟩ := Any.deserialize_sound L buf d b e a c h
  have := a.wire_length_ge
  omega

/-- C20: every successful `Any::deserialize` returns a cursor at least 16 bytes past
`begin` and not past `end`; hence decoding is total on every buffer and range: the
recursion through nested vectors never exhausts the bound computed from the number of
remaining bytes, gives the same result under every larger bound, and the counting loop
stops with an error after at most `(end - it) / 16 + 1` rounds whatever count was
declared, so that a successful `Serializator::deserialize` returns no more than
`(size - 8) / 16` values. -/
theorem Any.deserialize_total (L : Limits) (buf : Buffer) :
    (∀ d b e a c, Any.deserialize L buf d b e = (a, .ok c) → b + 16 ≤ c ∧ c ≤ e) ∧
    (∀ d b e, (Any.deserialize L buf d b e).2 ≠ .error .outOfFuel) ∧
    (∀ d b e fuel, (e - b) / 16 < fuel →
      Any.deserializeFuel L buf fuel d b e = Any.deserialize L buf d b e) ∧
    (∀ e n m it acc, (e - it) / 16 < n → (e - it) / 16 < m →
      deserializeItems (fun it => Any.deserialize L buf (.integer 0) it e) n it acc
          = deserializeItems (fun it => Any.deserialize L buf (.integer 0) it e) m it acc ∧
        ∃ st err, deserializeItems (fun it => Any.deserialize L buf (.integer 0) it e) n it acc
          = (st, .error err)) ∧
    Serializator.deserialize L buf ≠ .error .outOfFuel ∧
    (∀ res, Serializator.deserialize L buf = .ok res → 8 + 16 * res.length ≤ buf.length) := by
  refine ⟨Any.deserialize_advance L buf, ?_, ?_, ?_, ?_, ?_⟩
  · intro d b e h
    have h2 : Any.deserialize L buf d b e = ((Any.deserialize L buf d b e).1, .error .outOfFuel) := by
      rw [← h]
    rcases (Any.deserialize_any_error L buf d b e _ _ h2).2 with g | g | g | g | g | g | g
    all_goals first | exact absurd g (by decide) | exact absurd g.1 (by decide)
  · intro d b e fuel hf
    exact Any.deserializeFuel_fuel L buf e fuel (fuelFor b e) d b hf (by unfold fuelFor; omega)
  · intro e n m it acc h1 h2
    exact deserializeItems_count e (fun it a c h => Any.deserialize_advance L buf _ it e a c h)
      n m it acc h1 h2
  · intro h
    rcases Serializator.deserialize_packet_error L buf _ h with g | g | g | g | g | g | g
    all_goals first | exact absurd g (by decide) | exact absurd g.1 (by decide)
  · intro res h
    have h2 := (Serializator.deserialize_packet_sound L buf res h).2
    have h3 := List.IsPrefix.length_le h2
    have h4 := itemsWire_length_ge res
    rw [Serializator.serialize_eq_wire, List.length_append, le64_length] at h3
    omega

/-! ## The guards in front of the primitive decoder -/

theorem BaseType.deserializeId_guard (T : TypeId) (buf : Buffer) (b e : Nat)
    (h : distance b e < 8) : BaseType.deserializeId T buf b e = .error .tooSmallForTypeId := by
  simp only [BaseType.deserializeId, h, if_true]

/-- C15 (amended): `tools::deserialize` is given no end of the buffer and checks nothing
itself; the check is made by its callers `Any::deserialize` and `BaseType::deserialize`.
Whenever fewer than 8 bytes remain between the cursor and `end`, at the tag or at the
field behind the tag, these fail with an underrun error before the primitive is called,
on every buffer, also one that ends at `end`, so that no byte at or beyond `end` is read,
and the object is left as it was; and on a range inside the buffer `Any::deserialize`
never ends in a read outside the buffer. -/
theorem tools.deserialize_guarded (L : Limits) (buf : Buffer) (it end_ : Nat)
    (h : distance it end_ < 8) :
    (∀ d, Any.deserialize L buf d it end_ = (d, .error .invalidBufferSize)) ∧
    (∀ v0, IntegerType.deserialize buf v0 it end_ = (v0, .error .tooSmallForTypeId)) ∧
    (∀ v0, FloatType.deserialize buf v0 it end_ = (v0, .error .tooSmallForTypeId)) ∧
    (∀ s0, StringType.deserialize L buf s0 it end_ = (s0, .error .tooSmallForTypeId)) ∧
    (∀ xs0, VectorType.deserialize L buf xs0 it end_ = (xs0, .error .tooSmallForTypeId)) ∧
    (∀ (T : TypeId) (b v0 : Nat), b + 8 = it → it ≤ end_ → HasAt buf b (le64 T.toId) →
      BaseType.deserializeArithmetic T buf v0 b end_ = (v0, .error .tooSmallForValue) ∧
      BaseType.deserializeSize T buf b end_ = .error .tooSmallForSize) ∧
    (∀ d b e d2 err, e ≤ buf.length → Any.deserialize L buf d b e = (d2, .error err) →
      err ≠ .outOfBounds) := by
  refine ⟨fun d => ?_, fun v0 => ?_, fun v0 => ?_, fun s0 => ?_, fun xs0 => ?_, ?_, ?_⟩
  · simp only [Any.deserialize, fuelFor, Any.deserializeFuel, h, if_true]
  · simp only [IntegerType.deserialize, BaseType.deserializeArithmetic,
      BaseType.deserializeId_guard .Uint buf it end_ h]
  · simp only [FloatType.deserialize, BaseType.deserializeArithmetic,
      BaseType.deserializeId_guard .Float buf it end_ h]
  · simp only [StringType.deserialize, BaseType.deserializeSize,
      BaseType.deserializeId_guard .String buf it end_ h]
  · simp only [VectorType.deserialize, VectorType.deserializeWith, BaseType.deserializeSize,
      BaseType.deserializeId_guard .Vector buf it end_ h]
  · intro T b v0 hb hle hat
    subst hb
    unfold distance at h
    exact ⟨BaseType.deserializeArithmetic_short T buf v0 b end_ hle (by omega) hat,
      BaseType.deserializeSize_short T buf b end_ hle (by omega) hat⟩
  · intro d b e d2 err hle herr hc
    rcases (Any.deserialize_any_error L buf d b e d2 err herr).2 with g | g | g | g | g | g | g
    · rw [hc] at g; exact absurd g (by decide)
    · rw [hc] at g; exact absurd g (by decide)
    · rw [hc] at g; exact absurd g (by decide)
    · rw [hc] at g; exact absurd g (by decide)
    · rw [hc] at g; exact absurd g (by decide)
    · rw [hc] at g; exact absurd g (by decide)
    · omega

/-- Witness of `tools.deserialize_guarded`: a buffer of 11 bytes, the tag 0 and three bytes
behind it, with the cursor behind the tag. -/
theorem tools.deserialize_guarded_witness :
    distance 8 11 < 8 ∧
      Any.deserialize Limits.libstdcxx (le64 0 ++ [1, 2, 3]) (.integer 5) 8 11
        = (.integer 5, .error .invalidBufferSize) ∧
      IntegerType.deserialize (le64 0 ++ [1, 2, 3]) 5 0 11 = (5, .error .tooSmallForValue) ∧
      Any.deserialize Limits.libstdcxx (le64 0 ++ [1, 2, 3]) (.integer 5) 0 11
        = (.integer 5, .error .tooSmallForValue) :=
  have h := tools.deserialize_guarded Limits.libstdcxx (le64 0 ++ [1, 2, 3]) 8 11 (by decide)
  ⟨by decide, h.1 (.integer 5),
    (h.2.2.2.2.2.1 .Uint 0 5 rfl (by decide) (List.prefix_append _ _)).1, by rfl⟩

/-- C15, counterexample: with 3 bytes between the cursor and the end of the buffer
`tools::deserialize` does not fail with an underrun error; it dereferences the iterator
at the end of the buffer. -/
theorem tools.deserialize_unguarded :
    tools.deserialize [0x01, 0x02, 0x03] 0 = .error .outOfBounds ∧
      Err.outOfBounds.isUnderrun = false := by
  refine ⟨by rfl, by rfl⟩

/-! ## Which errors reach the caller of the generic decoder -/

/-- The tag mismatch never reaches the caller of the generic decoders: the concrete decoder
that `Any::deserialize` dispatches to reads the tag it was chosen by. -/
theorem Any.deserialize_not_mismatch (L : Limits) (buf : Buffer) (d : Any) (b e : Nat) (d2 : Any)
    (err1 : Err) (val : Buffer) (err2 : Err)
    (h1 : Any.deserialize L buf d b e = (d2, .error err1))
    (h2 : Serializator.deserialize L val = .error err2) :
    err1 ≠ .typeIdMismatch ∧ err2 ≠ .typeIdMismatch := by
  constructor
  · rcases (Any.deserialize_any_error L buf d b e d2 err1 h1).2 with g | g | g | g | g | g | g
    all_goals first | (subst g; decide) | (rw [g.1]; decide)
  · rcases Serializator.deserialize_packet_error L val err2 h2 with g | g | g | g | g | g | g
    all_goals first | (subst g; decide) | (rw [g.1]; decide)

/-- C17, the failing inputs: `Any::deserialize` on the 16 bytes of a string that declares
the length `2 ^ 63` (the length check is passed because of the signed cast), and
`Serializator::deserialize` on the 8 bytes of the count `2 ^ 62` (the count is handed to
`reserve` without any check), fail in `reserve` with `std::length_error`, which is neither
an underrun error nor "Unknown type ID". -/
theorem Any.deserialize_length_error :
    Any.deserialize Limits.libstdcxx (le64 2 ++ le64 (2 ^ 63)) (.integer 0) 0 16
        = (.integer 0, .error .lengthError) ∧
      Serializator.deserialize Limits.libstdcxx (le64 (2 ^ 62)) = .error .lengthError ∧
      Err.lengthError.isUnderrun = false ∧ Err.lengthError ≠ .unknownTypeId := by
  refine ⟨by rfl, by rfl, by rfl, by decide⟩

/-! ## The object after a failed call -/

theorem BaseType.deserializeArithmetic_error_state (T : TypeId) (buf : Buffer) (v0 b e v : Nat)
    (err : Err) (h : BaseType.deserializeArithmetic T buf v0 b e = (v, .error err)) : v = v0 := by
  unfold BaseType.deserializeArithmetic at h
  split at h
  · simp only [Prod.mk.injEq] at h
    exact h.1.symm
  · split at h
    · simp only [Prod.mk.injEq] at h
      exact h.1.symm
    · split at h
      · simp only [Prod.mk.injEq] at h
        exact h.1.symm
      · simp only [Prod.mk.injEq, reduceCtorEq, and_false] at h

theorem StringType.deserialize_error_state (L : Limits) (buf : Buffer) (s0 : List Byte)
    (b e : Nat) (s : List Byte) (err : Err)
    (h : StringType.deserialize L buf s0 b e = (s, .error err)) :
    s = s0 ∨ err = .lengthError ∨ err = .outOfBounds := by
  unfold StringType.deserialize at h
  split at h
  · simp only [Prod.mk.injEq] at h
    exact Or.inl h.1.symm
  · split at h
    · simp only [Prod.mk.injEq, Except.error.injEq] at h
      exact Or.inr (Or.inl h.2.symm)
    · exact Or.inr (Or.inr (StringType.deserializeLoop_error_oob buf _ _ _ s err h).1)

theorem deserializeItems_error_iff {dec : Nat → Any × Except Err Nat}
    (hsound : ∀ it a c, dec it = (a, .ok c) → c = it + a.wire.length) :
    ∀ (n it : Nat) (acc st : List Any) (err : Err),
      deserializeItems dec n it acc = (st, .error err) ↔
        ∃ xs, st = acc ++ xs ∧ xs.length < n ∧
          (∀ i x, xs[i]? = some x →
            dec (it + (itemsWire (xs.take i)).length)
              = (x, .ok (it + (itemsWire (xs.take (i + 1))).length))) ∧
          ∃ a, dec (it + (itemsWire xs).length) = (a, .error err) := by
  intro n
  induction n with
  | zero =>
    intro it acc st err
    simp only [deserializeItems, Prod.mk.injEq, reduceCtorEq, and_false, false_iff]
    rintro ⟨xs, _, h, _⟩
    omega
  | succ n ih =>
    intro it acc st err
    simp only [deserializeItems]
    cases hd : dec it with
    | mk a r =>
      cases r with
      | error e2 =>
        simp only [Prod.mk.injEq, Except.error.injEq]
        constructor
        · rintro ⟨rfl, rfl⟩
          refine ⟨[], by simp, by simp, ?_, a, ?_⟩
          · intro i x hx
            simp at hx
          · simpa [itemsWire] using hd
        · rintro ⟨xs, h1, _, h3, a2, h4⟩
          cases xs with
          | nil =>
            simp only [itemsWire, List.length_nil, Nat.add_zero] at h4
            rw [hd] at h4
            simp only [Prod.mk.injEq, Except.error.injEq] at h4
            exact ⟨by simp [h1], h4.2⟩
          | cons x xs =>
            have := h3 0 x (by simp)
            simp only [List.take_zero, itemsWire, List.length_nil, Nat.add_zero] at this
            rw [hd] at this
            simp only [Prod.mk.injEq, reduceCtorEq, and_false] at this
      | ok c =>
        have hc := hsound it a c hd
        subst hc
        simp only [ih]
        constructor
        · rintro ⟨xs, h1, h2, h3, a2, h4⟩
          refine ⟨a :: xs, by simp [h1], by simp only [List.length_cons]; omega, ?_, a2, ?_⟩
          · intro i x hx
            cases i with
            | zero =>
              simp only [List.getElem?_cons_zero, Option.some.injEq] at hx
              subst hx
              simpa [itemsWire] using hd
            | succ i =>
              simp only [List.getElem?_cons_succ] at hx
              have := h3 i x hx
              simpa [itemsWire, Nat.add_assoc] using this
          · simpa [itemsWire, Nat.add_assoc] using h4
        · rintro ⟨xs, h1, h2, h3, a2, h4⟩
          cases xs with
          | nil =>
            simp only [itemsWire, List.length_nil, Nat.add_zero] at h4
            rw [hd] at h4
            simp only [Prod.mk.injEq, reduceCtorEq, and_false] at h4
          | cons x xs =>
            have h0 := h3 0 x (by simp)
            simp only [List.take_zero, itemsWire, List.length_nil, Nat.add_zero] at h0
            rw [hd] at h0
            simp only [Prod.mk.injEq] at h0
            have hx : a = x := h0.1
            subst hx
            refine ⟨xs, by simp [h1], by simp only [List.length_cons] at h2; omega, ?_, a2, ?_⟩
            · intro i y hy
              have := h3 (i + 1) y (by simpa using hy)
              simpa [itemsWire, Nat.add_assoc] using this
            · simpa [itemsWire, Nat.add_assoc] using h4

/-- C18 (amended): if `deserialize` fails on an `Any`, an `IntegerType` or a `FloatType`,
the payload of the object after the call equals its payload before the call. A
`StringType` is left as it was by every failure with one of the errors of the codec (the
checks of tag, size field and length all come before `value_.clear()`). A `VectorType`
is left as it was when the check of the tag, of the size field or of the count fails;
once these are passed (and `reserve` accepts the count), it fails exactly when one of its
elements fails to decode, its previous payload is gone, and it holds exactly the elements
that `Any::deserialize` decoded one behind the other before the failing one. When
`reserve` rejects the count it is left empty. -/
theorem BaseType.deserialize_failure_state (L : Limits) (buf : Buffer) :
    (∀ d b e d2 err, Any.deserialize L buf d b e = (d2, .error err) → d2 = d) ∧
    (∀ v0 b e v err, IntegerType.deserialize buf v0 b e = (v, .error err) → v = v0) ∧
    (∀ v0 b e v err, FloatType.deserialize buf v0 b e = (v, .error err) → v = v0) ∧
    (∀ s0 b e s err, StringType.deserialize L buf s0 b e = (s, .error err) →
      err.isRuntimeError = true → s = s0) ∧
    (∀ xs0 b e err, BaseType.deserializeSize .Vector buf b e = .error err →
      VectorType.deserialize L buf xs0 b e = (xs0, .error err)) ∧
    (∀ xs0 b e size, BaseType.deserializeSize .Vector buf b e = .ok (size, b + 16) →
      L.vectorMax < size → VectorType.deserialize L buf xs0 b e = ([], .error .lengthError)) ∧
    (∀ xs0 b e size xs err, BaseType.deserializeSize .Vector buf b e = .ok (size, b + 16) →
      size ≤ L.vectorMax →
      (VectorType.deserialize L buf xs0 b e = (xs, .error err) ↔
        xs.length < size ∧
        (∀ i x, xs[i]? = some x →
          Any.deserialize L buf (.integer 0) (b + 16 + (itemsWire (xs.take i)).length) e
            = (x, .ok (b + 16 + (itemsWire (xs.take (i + 1))).length))) ∧
        Any.deserialize L buf (.integer 0) (b + 16 + (itemsWire xs).length) e
          = (.integer 0, .error err))) := by
  refine ⟨?_, ?_, ?_, ?_, ?_, ?_, ?_⟩
  · intro d b e d2 err h
    exact (Any.deserialize_any_error L buf d b e d2 err h).1
  · intro v0 b e v err h
    exact BaseType.deserializeArithmetic_error_state .Uint buf v0 b e v err h
  · intro v0 b e v err h
    exact BaseType.deserializeArithmetic_error_state .Float buf v0 b e v err h
  · intro s0 b e s err h hrt
    rcases StringType.deserialize_error_state L buf s0 b e s err h with g | g | g
    · exact g
    · rw [g] at hrt; exact absurd hrt (by decide)
    · rw [g] at hrt; exact absurd hrt (by decide)
  · intro xs0 b e err h
    simp only [VectorType.deserialize, VectorType.deserializeWith, h]
  · intro xs0 b e size h hm
    simp only [VectorType.deserialize, VectorType.deserializeWith, h, hm, if_true]
  · intro xs0 b e size xs err h hm
    have hm2 : ¬ L.vectorMax < size := by omega
    simp only [VectorType.deserialize, VectorType.deserializeWith, h, hm2, if_false]
    rw [deserializeItems_error_iff
      (fun it a c hd => (Any.deserialize_sound L buf (.integer 0) it e a c hd).2.2.1)]
    constructor
    · rintro ⟨ys, h1, h2, h3, a, h4⟩
      simp only [List.nil_append] at h1
      subst h1
      have ha := (Any.deserialize_any_error L buf _ _ _ a err h4).1
      subst ha
      exact ⟨h2, h3, h4⟩
    · rintro ⟨h2, h3, h4⟩
      exact ⟨xs, by simp, h2, h3, _, h4⟩

/-- C18, counterexample: a `VectorType` that holds `[5]` is asked to decode a vector that
declares two elements and holds one, the integer 1; the call fails with
"Invalid buffer size" at the second element and leaves the object holding `[1]`, the
element decoded before the failing one, not `[5]`. -/
theorem VectorType.deserialize_partial :
    VectorType.deserialize Limits.libstdcxx (le64 3 ++ le64 2 ++ le64 0 ++ le64 1) [.integer 5]
        0 32
      = ([.integer 1], .error .invalidBufferSize) ∧
    ([Any.integer 1] : List Any) ≠ [Any.integer 5] := by
  refine ⟨by rfl, by simp⟩

/-- Witness of `BaseType.deserialize_failure_state`: an `Any` holding a float that is asked
to decode an integer whose value is cut off, and a `VectorType` holding `[5]` that is asked
to decode a vector declaring two elements of which the second is missing. -/
theorem BaseType.deserialize_failure_state_witness :
    Any.deserialize Limits.libstdcxx (le64 3 ++ le64 2 ++ le64 0 ++ le64 1) (.float 3) 16 24
        = (.float 3, .error .tooSmallForValue) ∧
      Any.float 3 = Any.float 3 ∧
      BaseType.deserializeSize .Vector (le64 3 ++ le64 2 ++ le64 0 ++ le64 1) 0 32
        = .ok (2, 0 + 16) ∧
      2 ≤ Limits.libstdcxx.vectorMax ∧
      VectorType.deserialize Limits.libstdcxx (le64 3 ++ le64 2 ++ le64 0 ++ le64 1)
          [.integer 5] 0 32
        = ([.integer 1], .error .invalidBufferSize) ∧
      (([Any.integer 1] : List Any).length < 2 ∧
        (∀ i x, ([Any.integer 1] : List Any)[i]? = some x →
          Any.deserialize Limits.libstdcxx (le64 3 ++ le64 2 ++ le64 0 ++ le64 1) (.integer 0)
              (0 + 16 + (itemsWire (([Any.integer 1] : List Any).take i)).length) 32
            = (x, .ok (0 + 16 + (itemsWire (([Any.integer 1] : List Any).take (i + 1))).length))) ∧
        Any.deserialize Limits.libstdcxx (le64 3 ++ le64 2 ++ le64 0 ++ le64 1) (.integer 0)
            (0 + 16 + (itemsWire [Any.integer 1]).length) 32
          = (.integer 0, .error .invalidBufferSize)) :=
  have h := BaseType.deserialize_failure_state Limits.libstdcxx
    (le64 3 ++ le64 2 ++ le64 0 ++ le64 1)
  ⟨by rfl, h.1 (.float 3) 16 24 (.float 3) .tooSmallForValue (by rfl), by rfl, by decide, by rfl,
    (h.2.2.2.2.2.2 [.integer 5] 0 32 2 [.integer 1] .invalidBufferSize (by rfl) (by decide)).1
      (by rfl)⟩

/-- Witness of `Any.deserialize_total`: the packet of the header comment; the value in it
is decoded with the cursor 54 bytes further, and the counting loop started behind the
count with a declared count of 4 or of 1000 ends in the same error. -/
theorem Any.deserialize_total_witness :
    Any.deserialize Limits.libstdcxx examplePacket (.integer 0) 8 62 = (exampleValue, .ok 62) ∧
      (8 + 16 ≤ 62 ∧ 62 ≤ 62) ∧
      (62 - 8) / 16 < 4 ∧ (62 - 8) / 16 < 1000 ∧
      (deserializeItems (fun it => Any.deserialize Limits.libstdcxx examplePacket (.integer 0) it 62)
          4 8 []
        = deserializeItems
          (fun it => Any.deserialize Limits.libstdcxx examplePacket (.integer 0) it 62) 1000 8 [] ∧
      ∃ st err, deserializeItems
          (fun it => Any.deserialize Limits.libstdcxx examplePacket (.integer 0) it 62) 4 8 []
        = (st, .error err)) :=
  have h := Any.deserialize_total Limits.libstdcxx examplePacket
  ⟨by rfl, h.1 (.integer 0) 8 62 exampleValue 62 (by rfl), by decide, by decide,
    h.2.2.2.1 62 4 1000 8 [] (by decide) (by decide)⟩

end RawDataSerialize
